import Mathlib

/-!
Verification development for the react-graph-tree incremental layout and
ordering engine (metamodel-visualizer repository).

The definitions below are a shallow embedding of the TypeScript sources:

* `src/packages/react-graph-tree/src/utils/layout.ts` — `getDescendants`
  and the order-preserving re-layout portion of `getLayoutedElements`
  (everything after the dagre call; dagre itself is an external library
  whose output is just the input positions of the pass).
* `GraphTree.tsx` (the overflow-capable variant) — `setNodesWithOrder`,
  `handleNodesChange`, `processChildrenWithLimit`, `handleNodeClick`
  (decision prefix, success merge and error branch), the active-path edge
  styling effect, and `handleSelectHiddenNode`.
* `MoreNode.tsx` — `handleSelectNode` (computation of the remaining
  hidden list on promotion).

Conventions of the embedding:

* Coordinates are `Int`.  The pass only compares, subtracts and adds
  x-coordinates and groups by `Math.round(y)`; on integer-valued
  coordinates `Math.round` is the identity, so it is dropped.
* JavaScript `Array.prototype.sort` is required by the language spec to be
  stable; it is modelled by the stable `List.insertionSort`.
* The JS `Map` (`nodeOrderRef`) is modelled as an association list in
  insertion order with unique keys; `Map.size` is its length.
* `getDescendants` in the source is general recursion with no cycle
  protection.  It is embedded with an explicit fuel parameter; `none`
  means the fuel ran out.  On every input on which the source terminates
  the recursion depth is bounded by the number of edges plus one, so any
  larger fuel reproduces the source's result, and divergence of the
  source corresponds to `none` for every fuel.
-/

/-- A child descriptor as returned by the `onNodeExpand` fetch capability
(`ChildNode` in types.ts). -/
structure ChildNode where
  id : String
  label : String
  type : Option String := none
  description : Option String := none
deriving Repr, DecidableEq

/-- The `data` payload of a graph node (`InternalNodeData` / `MoreNodeData`
in types.ts; the two are merged here, `isMoreNode`/`hiddenNodes`/
`originalParentId` are only populated on overflow nodes). -/
structure NodeData where
  id : String
  label : String
  type : Option String := none
  description : Option String := none
  parentId : Option String := none
  level : Nat := 0
  isExpanded : Bool := false
  isLoading : Bool := false
  isNewNode : Bool := false
  animateEntrance : Bool := false
  isMoreNode : Bool := false
  hiddenNodes : List ChildNode := []
  originalParentId : Option String := none
deriving Repr, DecidableEq

/-- A ReactFlow node as used by the component: id, node type
(`"custom"` or `"more"`), position and data payload. -/
structure FlowNode where
  id : String
  ntype : String := "custom"
  x : Int := 0
  y : Int := 0
  data : NodeData
deriving Repr, DecidableEq

/-- A ReactFlow edge together with the style fields written by the
active-path styling effect. -/
structure FlowEdge where
  id : String
  source : String
  target : String
  animated : Bool := false
  stroke : String := "var(--graph-tree-line, #94a3b8)"
  strokeWidth : Int := 3
  markerColor : String := "var(--graph-tree-line, #94a3b8)"
  className : String := ""
deriving Repr, DecidableEq

/-! ### The order map (`nodeOrderRef`) -/

/-- Lookup in the order map (`nodeOrderRef.current.get(id)`). -/
def omLookup (om : List (String × Nat)) (id : String) : Option Nat :=
  match om.find? (fun p => p.1 == id) with
  | some p => some p.2
  | none => none

/-- Membership in the order map (`nodeOrderRef.current.has(id)`). -/
def omHas (om : List (String × Nat)) (id : String) : Bool :=
  (omLookup om id).isSome

/-- The comparator `(a, b) => orderA - orderB` with
`orderX = map.get(x) ?? Infinity`, as a boolean relation: an id missing
from the map compares larger than every present id. -/
def orderLEb (om : List (String × Nat)) (a b : String) : Bool :=
  match omLookup om a, omLookup om b with
  | some x, some y => x ≤ y
  | some _, none => true
  | none, some _ => false
  | none, none => true

/-- `orderLEb` as a decidable proposition, for use with `insertionSort`. -/
def orderLE (om : List (String × Nat)) (a b : String) : Prop :=
  orderLEb om a b = true

instance (om : List (String × Nat)) : DecidableRel (orderLE om) :=
  fun a b => instDecidableEqBool (orderLEb om a b) true

instance (om : List (String × Nat)) : IsTotal String (orderLE om) := by
  constructor
  intro a b
  unfold orderLE orderLEb
  cases omLookup om a <;> cases omLookup om b
  all_goals simp [Nat.le_total]

instance (om : List (String × Nat)) : IsTrans String (orderLE om) := by
  constructor
  intro a b c
  unfold orderLE orderLEb
  cases omLookup om a <;> cases omLookup om b <;> cases omLookup om c
  all_goals simp
  all_goals omega

/-! ### layout.ts : `getDescendants` -/

/-- Fueled embedding of `getDescendants` (layout.ts lines 10-23): for each
edge leaving `nodeId` whose target is a known node, the target is listed
followed by its own descendants, accumulated over the child edges in
order.  The source is plainly recursive; `none` records that the given
fuel (recursion-depth budget) was exhausted. -/
def getDescendantsF (edges : List FlowEdge) (allIds : List String) :
    Nat → String → Option (List String)
  | 0, _ => none
  | Nat.succ f, nodeId =>
    (edges.filter (fun e => e.source == nodeId)).foldr
      (fun e acc =>
        if allIds.contains e.target then
          match getDescendantsF edges allIds f e.target, acc with
          | some sub, some restL => some (e.target :: (sub ++ restL))
          | _, _ => none
        else acc)
      (some [])

/-- The `for (const edge of childEdges)` loop of `getDescendants` as an
explicit recursion over the remaining child edges (equal to the fold in
`getDescendantsF`, see `getDescendantsF_succ`). -/
def descendantsOverEdges (edges : List FlowEdge) (allIds : List String) (fuel : Nat) :
    List FlowEdge → Option (List String)
  | [] => some []
  | e :: rest =>
    if allIds.contains e.target then
      match getDescendantsF edges allIds fuel e.target,
            descendantsOverEdges edges allIds fuel rest with
      | some sub, some restL => some (e.target :: (sub ++ restL))
      | _, _ => none
    else
      descendantsOverEdges edges allIds fuel rest

/-! ### layout.ts : the order-preserving re-layout pass -/

/-- Current x-coordinate of the node with the given id (0 if absent; in
the source the node map always contains every processed id). -/
def getX (nodes : List FlowNode) (id : String) : Int :=
  match nodes.find? (fun n => n.id == id) with
  | some n => n.x
  | none => 0

/-- `node.position.x = targetX` on the node with the given id. -/
def setNodeX (nodes : List FlowNode) (id : String) (newX : Int) : List FlowNode :=
  nodes.map (fun n => if n.id == id then { n with x := newX } else n)

/-- `descendant.position.x += deltaX` on the node with the given id. -/
def addNodeX (nodes : List FlowNode) (id : String) (delta : Int) : List FlowNode :=
  nodes.map (fun n => if n.id == id then { n with x := n.x + delta } else n)

/-- `descendants.forEach(d => d.position.x += deltaX)`. -/
def shiftDescendants (nodes : List FlowNode) (ids : List String) (delta : Int) :
    List FlowNode :=
  ids.foldl (fun ns i => addNodeX ns i delta) nodes

/-- One iteration of the reorder loop (layout.ts lines 102-116 and
150-164): move the node to `targetX` and shift its whole descendant
subtree by the same delta, skipping the work when the delta is zero. -/
def applyResortStep (edges : List FlowEdge) (allIds : List String) (fuel : Nat)
    (nodes : List FlowNode) (id : String) (targetX : Int) : List FlowNode :=
  let deltaX := targetX - getX nodes id
  if deltaX = 0 then nodes
  else
    let moved := setNodeX nodes id targetX
    let ds := (getDescendantsF edges allIds fuel id).getD []
    shiftDescendants moved ds deltaX

/-- The `sortedNodes.forEach((node, index) => ...)` loop: the i-th node in
insertion order receives the i-th smallest original x. -/
def applyResort (edges : List FlowEdge) (allIds : List String) (fuel : Nat)
    (sortedIds : List String) (origXs : List Int) (nodes : List FlowNode) :
    List FlowNode :=
  (sortedIds.zip origXs).foldl
    (fun ns p => applyResortStep edges allIds fuel ns p.1 p.2) nodes

/-- Comparator `(a, b) => a.x - b.x` on `originalPositions` entries. -/
def xLE (a b : String × Int) : Prop := a.2 ≤ b.2

instance : DecidableRel xLE := fun a b => Int.decLe a.2 b.2

instance : IsTotal (String × Int) xLE := ⟨fun a b => Int.le_total a.2 b.2⟩

instance : IsTrans (String × Int) xLE := ⟨fun _ _ _ => Int.le_trans⟩

/-- The per-group resort applied identically to a rank of roots
(layout.ts lines 85-117) and to the children of one parent (lines
133-165): groups of size at most one are left alone; otherwise the
current x positions, sorted ascending, are reassigned to the group
members sorted by insertion order, each move dragging the member's
descendant subtree along. -/
def processGroup (edges : List FlowEdge) (allIds : List String) (fuel : Nat)
    (om : List (String × Nat)) (nodes : List FlowNode) (group : List String) :
    List FlowNode :=
  if group.length ≤ 1 then nodes
  else
    let originalPositions :=
      List.insertionSort xLE (group.map (fun i => (i, getX nodes i)))
    let sortedIds := List.insertionSort (orderLE om) group
    applyResort edges allIds fuel sortedIds (originalPositions.map (fun p => p.2)) nodes

/-- Grouping of root nodes by their (rounded) y coordinate, in JS `Map`
insertion order (layout.ts lines 75-82). -/
def rootRankGroupsAux (groups : List (Int × List String)) (y : Int) (id : String) :
    List (Int × List String) :=
  if groups.any (fun g => g.1 == y) then
    groups.map (fun g => if g.1 == y then (g.1, g.2 ++ [id]) else g)
  else
    groups ++ [(y, [id])]

/-- `rootRankGroups` built by one pass over the root nodes. -/
def rootRankGroups (roots : List FlowNode) : List (Int × List String) :=
  roots.foldl (fun gs n => rootRankGroupsAux gs n.y n.id) []

/-- Grouping of child nodes by their parent edge source, in JS `Map`
insertion order (layout.ts lines 121-130); a target absent from the node
map is skipped. -/
def childrenByParentAux (groups : List (String × List String)) (src tgt : String) :
    List (String × List String) :=
  if groups.any (fun g => g.1 == src) then
    groups.map (fun g => if g.1 == src then (g.1, g.2 ++ [tgt]) else g)
  else
    groups ++ [(src, [tgt])]

/-- `childrenByParent` built by one pass over the edge list. -/
def childrenByParent (edges : List FlowEdge) (allIds : List String) :
    List (String × List String) :=
  edges.foldl
    (fun gs e => if allIds.contains e.target then childrenByParentAux gs e.source e.target else gs)
    []

/-- The whole order-preserving portion of `getLayoutedElements`
(layout.ts lines 64-166): skipped when the order map is empty; otherwise
every rank of roots and then every sibling group is resorted by
`processGroup`.  The fuel `edges.length + 1` bounds the recursion depth of
`getDescendants` on every input on which the source terminates. -/
def reorderPass (om : List (String × Nat)) (nodes : List FlowNode)
    (edges : List FlowEdge) : List FlowNode :=
  if om.length = 0 then nodes
  else
    let allIds := nodes.map (fun n => n.id)
    let targetIds := edges.map (fun e => e.target)
    let roots := nodes.filter (fun n => !(targetIds.contains n.id))
    let fuel := edges.length + 1
    let afterRoots := (rootRankGroups roots).foldl
      (fun ns g => processGroup edges allIds fuel om ns g.2) nodes
    (childrenByParent edges allIds).foldl
      (fun ns g => processGroup edges allIds fuel om ns g.2) afterRoots

/-! ### GraphTree.tsx : state and order bookkeeping -/

/-- The component state acted on by the expansion coordinator: the node
array, the edge array and the order map (`nodeOrderRef`). -/
structure GraphState where
  nodes : List FlowNode
  edges : List FlowEdge
  orderMap : List (String × Nat)
deriving Repr, DecidableEq

/-- The `forEach` of `setNodesWithOrder` (GraphTree.tsx lines 724-729) and
of the expansion merge: every node id not yet in the order map receives
the index `map.size` at the moment it is first seen. -/
def assignOrderIndices (om : List (String × Nat)) (ns : List FlowNode) :
    List (String × Nat) :=
  ns.foldl (fun m n => if omHas m n.id then m else m ++ [(n.id, m.length)]) om

/-- Order comparator lifted to nodes, as used by the sorts in
`setNodesWithOrder` and `handleNodesChange`. -/
def nodeOrderLE (om : List (String × Nat)) (a b : FlowNode) : Prop :=
  orderLE om a.id b.id

instance (om : List (String × Nat)) : DecidableRel (nodeOrderLE om) :=
  fun a b => instDecidableEqBool (orderLEb om a.id b.id) true

instance (om : List (String × Nat)) : IsTotal FlowNode (nodeOrderLE om) :=
  ⟨fun a b => IsTotal.total (r := orderLE om) a.id b.id⟩

instance (om : List (String × Nat)) : IsTrans FlowNode (nodeOrderLE om) :=
  ⟨fun _ _ _ h1 h2 => Trans.trans (r := orderLE om) (s := orderLE om) h1 h2⟩

/-- `setNodesWithOrder` (GraphTree.tsx lines 718-738): assign fresh order
indices to unknown ids, then store the array sorted by order index.
Returns the stored array together with the updated order map. -/
def setNodesWithOrder (om : List (String × Nat)) (newNodes : List FlowNode) :
    List FlowNode × List (String × Nat) :=
  let om2 := assignOrderIndices om newNodes
  (List.insertionSort (nodeOrderLE om2) newNodes, om2)

/-- `handleNodesChange` (GraphTree.tsx lines 741-750): apply the ReactFlow
change list (an external library function, modelled as an opaque function
parameter) and re-sort by the existing order map.  The order map is not
touched by this handler. -/
def handleNodesChange (om : List (String × Nat))
    (applyChanges : List FlowNode → List FlowNode) (current : List FlowNode) :
    List FlowNode × List (String × Nat) :=
  (List.insertionSort (nodeOrderLE om) (applyChanges current), om)

/-! ### GraphTree.tsx : expansion -/

/-- A plain child node record as built at every expansion site
(GraphTree.tsx lines 785-801, 1008-1024): level is parent level + 1,
`isNewNode` set, entrance animation tied to the animation toggle. -/
def mkChildFlowNode (isAnimated : Bool) (parentId : String) (parentLevel : Nat)
    (child : ChildNode) : FlowNode :=
  { id := child.id, ntype := "custom", x := 0, y := 0,
    data := { id := child.id, label := child.label, type := child.type,
              description := child.description, parentId := some parentId,
              level := parentLevel + 1, isExpanded := false, isLoading := false,
              isNewNode := true, animateEntrance := isAnimated } }

/-- A new edge record as built at every expansion site (GraphTree.tsx
lines 1027-1034, 1364-1371): id is `source-target`. -/
def mkChildEdge (sourceId targetId : String) : FlowEdge :=
  { id := sourceId ++ "-" ++ targetId, source := sourceId, target := targetId,
    animated := true, stroke := "var(--graph-tree-line, #94a3b8)", strokeWidth := 3,
    markerColor := "var(--graph-tree-line, #94a3b8)" }

/-- Result record of `processChildrenWithLimit`. -/
structure ProcessedChildren where
  visibleNodes : List FlowNode
  hiddenNodes : List ChildNode
  moreNode : Option FlowNode
deriving Repr, DecidableEq

/-- `processChildrenWithLimit` (GraphTree.tsx lines 753-824): when the cap
is disabled (`0`/negative) or the children fit, all become plain nodes;
otherwise the first `cap - 1` become plain nodes and the rest are wrapped
in one `"<parentId>-more"` overflow node carrying the hidden list. -/
def processChildrenWithLimit (maxVisibleChildren : Int) (isAnimated : Bool)
    (childNodes : List ChildNode) (parentId : String) (parentLevel : Nat) :
    ProcessedChildren :=
  if maxVisibleChildren ≤ 0 ∨ (childNodes.length : Int) ≤ maxVisibleChildren then
    { visibleNodes := childNodes.map (mkChildFlowNode isAnimated parentId parentLevel),
      hiddenNodes := [], moreNode := none }
  else
    let visibleCount := (maxVisibleChildren - 1).toNat
    let visibleChildren := childNodes.take visibleCount
    let hiddenChildren := childNodes.drop visibleCount
    let moreNodeId := parentId ++ "-more"
    let moreData : NodeData :=
      { id := moreNodeId, label := toString hiddenChildren.length ++ " more",
        type := some "more", parentId := some parentId, level := parentLevel + 1,
        isMoreNode := true, hiddenNodes := hiddenChildren,
        originalParentId := some parentId }
    { visibleNodes := visibleChildren.map (mkChildFlowNode isAnimated parentId parentLevel),
      hiddenNodes := hiddenChildren,
      moreNode := some { id := moreNodeId, ntype := "more", x := 0, y := 0, data := moreData } }

/-- The structural part of the success branch of `handleNodeClick`
(GraphTree.tsx lines 1355-1398): build the visible/overflow children and
one edge per new node, clear the parent's loading flag and mark it
expanded, merge, and record order indices for the new ids.  The
subsequent layout call and `setNodesWithOrder` only rewrite positions and
re-sort the array; they add or remove nothing. -/
def expandSuccess (maxVisibleChildren : Int) (isAnimated : Bool) (st : GraphState)
    (nodeId : String) (nodeLevel : Nat) (children : List ChildNode) : GraphState :=
  let pc := processChildrenWithLimit maxVisibleChildren isAnimated children nodeId nodeLevel
  let newNodes := match pc.moreNode with
    | some m => pc.visibleNodes ++ [m]
    | none => pc.visibleNodes
  let newEdges := newNodes.map (fun c => mkChildEdge nodeId c.id)
  let updatedParentNodes := st.nodes.map (fun n =>
    if n.id == nodeId then
      { n with data := { n.data with isLoading := false, isExpanded := true } }
    else n)
  let allNodes := updatedParentNodes ++ newNodes
  { nodes := allNodes, edges := st.edges ++ newEdges,
    orderMap := assignOrderIndices st.orderMap allNodes }

/-- Structured error context handed to the `onError` capability. -/
structure ErrorReport where
  nodeId : String
  action : String
deriving Repr, DecidableEq

/-- The catch branch of `handleNodeClick` (GraphTree.tsx lines 1439-1456):
clear the loading flag of the clicked node (via `setNodesWithOrder`, which
re-sorts but changes no membership) and report the error with the node id
and the `"expand"` action tag when an `onError` capability is present.
Edges are not touched at all. -/
def expandFailure (hasOnError : Bool) (st : GraphState) (nodeId : String) :
    GraphState × Option ErrorReport :=
  let mapped := st.nodes.map (fun n =>
    if n.id == nodeId then { n with data := { n.data with isLoading := false } } else n)
  let p := setNodesWithOrder st.orderMap mapped
  ({ nodes := p.1, edges := st.edges, orderMap := p.2 },
   if hasOnError then some { nodeId := nodeId, action := "expand" } else none)

/-- What `handleNodeClick` (GraphTree.tsx lines 1266-1332) decides to do
with a click, before any asynchronous work happens. -/
inductive ClickAction where
  | ignoreMoreNode
  | pathOnly
  | startFetch
deriving Repr, DecidableEq

/-- The decision prefix of `handleNodeClick`: overflow nodes are skipped,
expanded nodes only update path/view, a missing expansion callback only
updates path/view, and every remaining click marks the node loading and
invokes the child-fetch capability.  The `isLoading` flag is never
consulted. -/
def handleNodeClickAction (hasOnNodeExpand : Bool) (d : NodeData) : ClickAction :=
  if d.isMoreNode then ClickAction.ignoreMoreNode
  else if d.isExpanded then ClickAction.pathOnly
  else if !hasOnNodeExpand then ClickAction.pathOnly
  else ClickAction.startFetch

/-! ### GraphTree.tsx : active-path edge styling -/

/-- `getActivePathEdges` (GraphTree.tsx lines 942-948): the edge ids
`path[i]-path[i+1]` for every consecutive pair of the path. -/
def getActivePathEdges : List String → List String
  | a :: b :: rest => (a ++ "-" ++ b) :: getActivePathEdges (b :: rest)
  | _ => []

/-- The consecutive pairs of a path (specification-side companion of
`getActivePathEdges`). -/
def pathPairs : List String → List (String × String)
  | a :: b :: rest => (a, b) :: pathPairs (b :: rest)
  | _ => []

/-- The per-edge body of the styling effect (GraphTree.tsx lines
954-972): an edge whose id is in the active set is animated, gets the
active stroke/marker colour, width 3 and the active-path class; every
other edge gets the default style. -/
def styleEdge (act : List String) (e : FlowEdge) : FlowEdge :=
  let isOnActivePath := act.contains e.id
  { e with
    animated := isOnActivePath,
    stroke := if isOnActivePath then "var(--graph-tree-active-path, #22c55e)"
              else "var(--graph-tree-line, #94a3b8)",
    strokeWidth := if isOnActivePath then 3 else 2,
    markerColor := if isOnActivePath then "var(--graph-tree-active-path, #22c55e)"
                   else "var(--graph-tree-line, #94a3b8)",
    className := if isOnActivePath then "graph-tree-active-path-edge" else "" }

/-- The styling effect body (GraphTree.tsx lines 951-973): runs on every
active-path change, including the empty path, restyles every edge. -/
def styleEdges (activePath : List String) (edges : List FlowEdge) : List FlowEdge :=
  let act := if activePath.length > 0 then getActivePathEdges activePath else []
  edges.map (styleEdge act)

/-! ### MoreNode.tsx / GraphTree.tsx : overflow promotion -/

/-- `MoreNode.handleSelectNode` (MoreNode.tsx line 121): the remaining
hidden list handed to the promotion callback is the current hidden list
with every entry of the selected id filtered out. -/
def computeRemaining (hiddenNodes : List ChildNode) (selected : ChildNode) :
    List ChildNode :=
  hiddenNodes.filter (fun n => !(n.id == selected.id))

/-- The structural part of `handleSelectHiddenNode` (GraphTree.tsx lines
994-1096): a promotion whose parent id is absent from the node set
returns with no change at all (`if (!parentNode) return;`).  Otherwise a
plain node and edge for the selected child are created; when no hidden
entries remain the overflow node and its incoming edges are removed,
otherwise its hidden list and `"n more"` label are updated.  The new id
is recorded in the order map.  (The subsequent layout call and the
optional expansion of the promoted child are separate steps.) -/
def promoteHiddenNode (isAnimated : Bool) (st : GraphState) (parentNodeId : String)
    (selectedNode : ChildNode) (remainingHiddenNodes : List ChildNode) : GraphState :=
  let moreNodeId := parentNodeId ++ "-more"
  match st.nodes.find? (fun n => n.id == parentNodeId) with
  | none => st
  | some parentNode =>
    let newNode := mkChildFlowNode isAnimated parentNodeId parentNode.data.level selectedNode
    let newEdge := mkChildEdge parentNodeId selectedNode.id
    let updatedNodes :=
      if remainingHiddenNodes.length = 0 then
        (st.nodes.filter (fun n => !(n.id == moreNodeId))) ++ [newNode]
      else
        (st.nodes.map (fun n =>
          if n.id == moreNodeId then
            { n with data := { n.data with
                label := toString remainingHiddenNodes.length ++ " more",
                hiddenNodes := remainingHiddenNodes } }
          else n)) ++ [newNode]
    let updatedEdges :=
      if remainingHiddenNodes.length = 0 then
        (st.edges.filter (fun e => !(e.target == moreNodeId))) ++ [newEdge]
      else
        st.edges ++ [newEdge]
    { nodes := updatedNodes, edges := updatedEdges,
      orderMap := assignOrderIndices st.orderMap [newNode] }

/-- A sequence of promotions acting on the pair (still-hidden list,
promoted-out list).  Each step requires the selected child to be a member
of the current hidden list and removes it via `computeRemaining`, exactly
as `MoreNode.handleSelectNode` computes the list passed to
`handleSelectHiddenNode`. -/
def promoteSeq (st : List ChildNode × List ChildNode) (sels : List ChildNode) :
    Option (List ChildNode × List ChildNode) :=
  match sels with
  | [] => some st
  | s :: rest =>
    if st.1.contains s then
      promoteSeq (computeRemaining st.1 s, st.2 ++ [s]) rest
    else none

/-! ### GraphTree.tsx : initialization -/

/-- The initialization effect (GraphTree.tsx lines 849-871): one node per
initial descriptor at `(index * 250, 0)`, level 0, collapsed; the order
map is cleared and rebuilt with the descriptor indices. -/
def initializeGraph (initialNodesProp : List ChildNode) : GraphState :=
  let initialFlowNodes := initialNodesProp.enum.map (fun p =>
    ({ id := p.2.id, ntype := "custom", x := (p.1 : Int) * 250, y := 0,
       data := { id := p.2.id, label := p.2.label, type := p.2.type,
                 level := 0, isExpanded := false, isLoading := false } } : FlowNode))
  let om := initialNodesProp.enum.map (fun p => (p.2.id, p.1))
  let p := setNodesWithOrder om initialFlowNodes
  { nodes := p.1, edges := [], orderMap := p.2 }

/-! ### Specification-side definitions used by the theorems -/

/-- Current y-coordinate of the node with the given id (companion of
`getX`; the re-layout pass never writes y). -/
def getY (nodes : List FlowNode) (id : String) : Int :=
  match nodes.find? (fun n => n.id == id) with
  | some n => n.y
  | none => 0

/-- Length-indexed reachability along edges, mirroring exactly the moves
`getDescendants` makes: an edge is followed only when its target is a
known node id.  `ReachN n a x` holds when `x` is reached from `a` by a
chain of `n ≥ 1` such edges. -/
inductive ReachN (edges : List FlowEdge) (allIds : List String) :
    Nat → String → String → Prop where
  | direct (a : String) (e : FlowEdge) (he : e ∈ edges) (hs : e.source = a)
      (ht : allIds.contains e.target = true) : ReachN edges allIds 1 a e.target
  | step (a x : String) (n : Nat) (e : FlowEdge) (he : e ∈ edges) (hs : e.source = a)
      (ht : allIds.contains e.target = true)
      (hr : ReachN edges allIds n e.target x) : ReachN edges allIds (n + 1) a x

/-- `x` is a transitive descendant of `a`: reachable by following
outgoing edges whose targets are known nodes. -/
def Reaches (edges : List FlowEdge) (allIds : List String) (a x : String) : Prop :=
  ∃ n, ReachN edges allIds n a x

/-- A string not containing the dash character.  Node ids built from
dash-free strings make the `"<source>-<target>"` edge-id convention
injective. -/
def dashFree (s : String) : Prop := ('-' : Char) ∉ s.data

instance (s : String) : Decidable (dashFree s) :=
  inferInstanceAs (Decidable (('-' : Char) ∉ s.data))

/-- `(i₀, k), (i₁, k+1), ...`: consecutive order indices starting at `k`. -/
def enumFrom (k : Nat) : List String → List (String × Nat)
  | [] => []
  | i :: rest => (i, k) :: enumFrom (k + 1) rest

/-- The ids of a node list that are not yet among `keys`, in first-seen
order and without repetition. -/
def freshIds (keys : List String) : List String → List String
  | [] => []
  | i :: rest =>
    if keys.contains i then freshIds keys rest
    else i :: freshIds (keys ++ [i]) rest

/-- Seven child descriptors for the cap-5 truncation scenario. -/
def c3Kids : List ChildNode :=
  [{ id := "k1", label := "K1" }, { id := "k2", label := "K2" },
   { id := "k3", label := "K3" }, { id := "k4", label := "K4" },
   { id := "k5", label := "K5" }, { id := "k6", label := "K6" },
   { id := "k7", label := "K7" }]

/-- A one-root state (`R` currently loading) for the truncation scenario. -/
def c3State : GraphState :=
  { nodes := [{ id := "R", data := { id := "R", label := "R", isLoading := true } }],
    edges := [], orderMap := [("R", 0)] }

/-- A state used by the expansion-failure scenario: loading root `R` with
one child and one edge already present. -/
def c6State : GraphState :=
  { nodes := [{ id := "R", data := { id := "R", label := "R", isLoading := true } },
              { id := "A", data := { id := "A", label := "A", parentId := some "R",
                                     level := 1 } }],
    edges := [{ id := "R-A", source := "R", target := "A" }],
    orderMap := [("R", 0), ("A", 1)] }

/-- Hidden children of an overflow node for the conservation scenario. -/
def c4Hidden : List ChildNode :=
  [{ id := "a", label := "A" }, { id := "b", label := "B" }, { id := "c", label := "C" }]

/-- Parent node of the overflow scenario. -/
def c4Parent : FlowNode := { id := "P", data := { id := "P", label := "P" } }

/-- State with a parent and its overflow node, for the promotion
scenarios. -/
def c4State : GraphState :=
  { nodes := [c4Parent,
              { id := "P-more", ntype := "more",
                data := { id := "P-more", label := "2 more", type := some "more",
                          parentId := some "P", level := 1, isMoreNode := true,
                          hiddenNodes := c4Hidden, originalParentId := some "P" } }],
    edges := [{ id := "P-P-more", source := "P", target := "P-more" }],
    orderMap := [("P", 0), ("P-more", 1)] }

/-- Two roots and one child for the resort scenario: the heuristic put
root `b` (inserted second) left of root `a`. -/
def c1Nodes : List FlowNode :=
  [{ id := "a", x := 100, y := 0, data := { id := "a", label := "A" } },
   { id := "b", x := 0, y := 0, data := { id := "b", label := "B" } },
   { id := "c", x := 110, y := 100, data := { id := "c", label := "C",
                                              parentId := some "a", level := 1 } }]

/-- The single edge of the resort scenario. -/
def c1Edges : List FlowEdge := [{ id := "a-c", source := "a", target := "c" }]

/-- A two-edge cycle `a -> b -> a` on which the descendant recursion never
terminates. -/
def c7CycEdges : List FlowEdge :=
  [{ id := "a-b", source := "a", target := "b" },
   { id := "b-a", source := "b", target := "a" }]

/-- A two-edge chain `a -> b -> c` for the subtree-cohesion scenario. -/
def c2Edges : List FlowEdge :=
  [{ id := "a-b", source := "a", target := "b" },
   { id := "b-c", source := "b", target := "c" }]

/-- Nodes of the subtree-cohesion scenario. -/
def c2Nodes : List FlowNode :=
  [{ id := "a", x := 10, y := 0, data := { id := "a", label := "A" } },
   { id := "b", x := 20, y := 100, data := { id := "b", label := "B" } },
   { id := "c", x := 30, y := 200, data := { id := "c", label := "C" } }]

/-- A rank function strictly decreasing along `c2Edges`. -/
def c2Rank : String → Nat := fun s => if s = "a" then 2 else if s = "b" then 1 else 0

/-- Two edges out of root `R` for the styling scenario. -/
def c8Edges : List FlowEdge :=
  [{ id := "R-C1", source := "R", target := "C1" },
   { id := "R-C2", source := "R", target := "C2" }]

/-! ## Helper lemmas: node-list updates -/

theorem find?_map_id_pres (nodes : List FlowNode) (g : FlowNode → FlowNode)
    (hg : ∀ n, (g n).id = n.id) (i : String) :
    (nodes.map g).find? (fun n => n.id == i) =
      (nodes.find? (fun n => n.id == i)).map g := by
  induction nodes with
  | nil => rfl
  | cons n rest ih =>
    by_cases h : n.id = i
    · simp [List.find?_cons, hg, h]
    · have h1 : ((g n).id == i) = false := by simp [hg, h]
      have h2 : (n.id == i) = false := by simp [h]
      simp [List.find?_cons, h1, h2, ih]

theorem setNodeX_map_id (nodes : List FlowNode) (i : String) (v : Int) :
    (setNodeX nodes i v).map (fun n => n.id) = nodes.map (fun n => n.id) := by
  unfold setNodeX
  rw [List.map_map]
  apply List.map_congr_left
  intro n _
  by_cases h : n.id = i <;> simp [h]

theorem addNodeX_map_id (nodes : List FlowNode) (i : String) (d : Int) :
    (addNodeX nodes i d).map (fun n => n.id) = nodes.map (fun n => n.id) := by
  unfold addNodeX
  rw [List.map_map]
  apply List.map_congr_left
  intro n _
  by_cases h : n.id = i <;> simp [h]

theorem shiftDescendants_nil (nodes : List FlowNode) (d : Int) :
    shiftDescendants nodes [] d = nodes := rfl

theorem shiftDescendants_cons (nodes : List FlowNode) (i : String) (rest : List String)
    (d : Int) :
    shiftDescendants nodes (i :: rest) d = shiftDescendants (addNodeX nodes i d) rest d := rfl

theorem shiftDescendants_map_id (nodes : List FlowNode) (ids : List String) (d : Int) :
    (shiftDescendants nodes ids d).map (fun n => n.id) = nodes.map (fun n => n.id) := by
  induction ids generalizing nodes with
  | nil => rfl
  | cons i rest ih =>
    rw [shiftDescendants_cons, ih, addNodeX_map_id]

theorem getX_eq (nodes : List FlowNode) (i : String) :
    getX nodes i = ((nodes.find? (fun n => n.id == i)).map (fun n => n.x)).getD 0 := by
  unfold getX
  cases hf : nodes.find? (fun n => n.id == i) <;> rfl

theorem getY_eq (nodes : List FlowNode) (i : String) :
    getY nodes i = ((nodes.find? (fun n => n.id == i)).map (fun n => n.y)).getD 0 := by
  unfold getY
  cases hf : nodes.find? (fun n => n.id == i) <;> rfl

theorem getX_setNodeX_self (nodes : List FlowNode) (i : String) (v : Int)
    (h : i ∈ nodes.map (fun n => n.id)) : getX (setNodeX nodes i v) i = v := by
  simp only [getX_eq]
  unfold setNodeX
  rw [find?_map_id_pres _ _ (fun n => by by_cases hn : n.id = i <;> simp [hn]) i]
  rcases hf : nodes.find? (fun n => n.id == i) with _ | n
  · exfalso
    rw [List.find?_eq_none] at hf
    rcases List.mem_map.mp h with ⟨n, hn, hid⟩
    exact absurd (by simp [hid]) (hf n hn)
  · have hp := List.find?_some hf
    rw [hf]
    simp only [Option.map_some', Option.getD_some]
    split <;> simp_all

theorem getX_setNodeX_ne (nodes : List FlowNode) (i j : String) (v : Int)
    (h : j ≠ i) : getX (setNodeX nodes i v) j = getX nodes j := by
  simp only [getX_eq]
  unfold setNodeX
  rw [find?_map_id_pres _ _ (fun n => by by_cases hn : n.id = i <;> simp [hn]) j]
  rcases hf : nodes.find? (fun n => n.id == j) with _ | n
  · rw [hf]; rfl
  · have hp := List.find?_some hf
    rw [beq_iff_eq] at hp
    rw [hf]
    simp only [Option.map_some', Option.getD_some]
    split <;> simp_all

theorem getX_addNodeX_self (nodes : List FlowNode) (i : String) (d : Int)
    (h : i ∈ nodes.map (fun n => n.id)) :
    getX (addNodeX nodes i d) i = getX nodes i + d := by
  simp only [getX_eq]
  unfold addNodeX
  rw [find?_map_id_pres _ _ (fun n => by by_cases hn : n.id = i <;> simp [hn]) i]
  rcases hf : nodes.find? (fun n => n.id == i) with _ | n
  · exfalso
    rw [List.find?_eq_none] at hf
    rcases List.mem_map.mp h with ⟨n, hn, hid⟩
    exact absurd (by simp [hid]) (hf n hn)
  · have hp := List.find?_some hf
    rw [hf]
    simp only [Option.map_some', Option.getD_some]
    split <;> simp_all

theorem getX_addNodeX_ne (nodes : List FlowNode) (i j : String) (d : Int)
    (h : j ≠ i) : getX (addNodeX nodes i d) j = getX nodes j := by
  simp only [getX_eq]
  unfold addNodeX
  rw [find?_map_id_pres _ _ (fun n => by by_cases hn : n.id = i <;> simp [hn]) j]
  rcases hf : nodes.find? (fun n => n.id == j) with _ | n
  · rw [hf]; rfl
  · have hp := List.find?_some hf
    rw [beq_iff_eq] at hp
    rw [hf]
    simp only [Option.map_some', Option.getD_some]
    split <;> simp_all

theorem getX_shiftDescendants_not_mem (nodes : List FlowNode) (ids : List String)
    (d : Int) (j : String) (h : j ∉ ids) :
    getX (shiftDescendants nodes ids d) j = getX nodes j := by
  induction ids generalizing nodes with
  | nil => rfl
  | cons i rest ih =>
    rw [shiftDescendants_cons]
    rw [ih (addNodeX nodes i d) (fun hr => h (List.mem_cons_of_mem _ hr))]
    exact getX_addNodeX_ne nodes i j d (fun he => h (he ▸ List.mem_cons_self i rest))

theorem getX_shiftDescendants_count (nodes : List FlowNode) (ids : List String)
    (d : Int) (j : String) (h : j ∈ nodes.map (fun n => n.id)) :
    getX (shiftDescendants nodes ids d) j = getX nodes j + d * (ids.count j) := by
  induction ids generalizing nodes with
  | nil => simp [shiftDescendants_nil]
  | cons i rest ih =>
    rw [shiftDescendants_cons]
    have hpres : j ∈ (addNodeX nodes i d).map (fun n => n.id) := by
      rw [addNodeX_map_id]; exact h
    by_cases hij : i = j
    · subst hij
      rw [ih (addNodeX nodes i d) hpres, getX_addNodeX_self nodes i d h]
      rw [List.count_cons_self]
      push_cast
      ring
    · rw [ih (addNodeX nodes i d) hpres, getX_addNodeX_ne nodes i j d (fun he => hij he.symm)]
      rw [List.count_cons_of_ne (fun he => hij he.symm)]

theorem getY_map_pres (nodes : List FlowNode) (g : FlowNode → FlowNode)
    (hgid : ∀ n, (g n).id = n.id) (hgy : ∀ n, (g n).y = n.y) (j : String) :
    getY (nodes.map g) j = getY nodes j := by
  simp only [getY_eq]
  rw [find?_map_id_pres _ _ hgid j]
  cases hf : nodes.find? (fun n => n.id == j) <;> simp [hgy]

theorem getY_setNodeX (nodes : List FlowNode) (i : String) (v : Int) (j : String) :
    getY (setNodeX nodes i v) j = getY nodes j := by
  unfold setNodeX
  exact getY_map_pres nodes _
    (fun n => by by_cases hn : n.id = i <;> simp [hn])
    (fun n => by by_cases hn : n.id = i <;> simp [hn]) j

theorem getY_addNodeX (nodes : List FlowNode) (i : String) (d : Int) (j : String) :
    getY (addNodeX nodes i d) j = getY nodes j := by
  unfold addNodeX
  exact getY_map_pres nodes _
    (fun n => by by_cases hn : n.id = i <;> simp [hn])
    (fun n => by by_cases hn : n.id = i <;> simp [hn]) j

theorem getY_shiftDescendants (nodes : List FlowNode) (ids : List String) (d : Int)
    (j : String) : getY (shiftDescendants nodes ids d) j = getY nodes j := by
  induction ids generalizing nodes with
  | nil => rfl
  | cons i rest ih => rw [shiftDescendants_cons, ih, getY_addNodeX]

theorem applyResortStep_eq (edges : List FlowEdge) (allIds : List String) (fuel : Nat)
    (nodes : List FlowNode) (id : String) (targetX : Int) :
    applyResortStep edges allIds fuel nodes id targetX =
      if targetX - getX nodes id = 0 then nodes
      else shiftDescendants (setNodeX nodes id targetX)
             ((getDescendantsF edges allIds fuel id).getD []) (targetX - getX nodes id) := rfl

theorem applyResortStep_map_id (edges : List FlowEdge) (allIds : List String) (fuel : Nat)
    (nodes : List FlowNode) (id : String) (targetX : Int) :
    (applyResortStep edges allIds fuel nodes id targetX).map (fun n => n.id) =
      nodes.map (fun n => n.id) := by
  rw [applyResortStep_eq]
  split
  · rfl
  · rw [shiftDescendants_map_id, setNodeX_map_id]

theorem getY_applyResortStep (edges : List FlowEdge) (allIds : List String) (fuel : Nat)
    (nodes : List FlowNode) (id : String) (targetX : Int) (j : String) :
    getY (applyResortStep edges allIds fuel nodes id targetX) j = getY nodes j := by
  rw [applyResortStep_eq]
  split
  · rfl
  · rw [getY_shiftDescendants, getY_setNodeX]

theorem applyResortStep_getX_other (edges : List FlowEdge) (allIds : List String)
    (fuel : Nat) (nodes : List FlowNode) (id : String) (targetX : Int) (j : String)
    (hj1 : j ≠ id)
    (hj2 : j ∉ (getDescendantsF edges allIds fuel id).getD []) :
    getX (applyResortStep edges allIds fuel nodes id targetX) j = getX nodes j := by
  rw [applyResortStep_eq]
  split
  · rfl
  · rw [getX_shiftDescendants_not_mem _ _ _ _ hj2, getX_setNodeX_ne _ _ _ _ hj1]

theorem applyResortStep_getX_self (edges : List FlowEdge) (allIds : List String)
    (fuel : Nat) (nodes : List FlowNode) (id : String) (targetX : Int)
    (hpres : id ∈ nodes.map (fun n => n.id))
    (hns : id ∉ (getDescendantsF edges allIds fuel id).getD []) :
    getX (applyResortStep edges allIds fuel nodes id targetX) id = targetX := by
  rw [applyResortStep_eq]
  split
  · omega
  · rw [getX_shiftDescendants_not_mem _ _ _ _ hns, getX_setNodeX_self _ _ _ hpres]

theorem applyResort_nil_left (edges : List FlowEdge) (allIds : List String) (fuel : Nat)
    (xs : List Int) (ns : List FlowNode) :
    applyResort edges allIds fuel [] xs ns = ns := rfl

theorem applyResort_nil_right (edges : List FlowEdge) (allIds : List String) (fuel : Nat)
    (i : String) (is : List String) (ns : List FlowNode) :
    applyResort edges allIds fuel (i :: is) [] ns = ns := rfl

theorem applyResort_cons (edges : List FlowEdge) (allIds : List String) (fuel : Nat)
    (i : String) (is : List String) (x : Int) (xs : List Int) (ns : List FlowNode) :
    applyResort edges allIds fuel (i :: is) (x :: xs) ns =
      applyResort edges allIds fuel is xs (applyResortStep edges allIds fuel ns i x) := rfl

theorem applyResort_map_id (edges : List FlowEdge) (allIds : List String) (fuel : Nat)
    (sortedIds : List String) (origXs : List Int) (nodes : List FlowNode) :
    (applyResort edges allIds fuel sortedIds origXs nodes).map (fun n => n.id) =
      nodes.map (fun n => n.id) := by
  induction sortedIds generalizing origXs nodes with
  | nil => rfl
  | cons i rest ih =>
    cases origXs with
    | nil => rfl
    | cons x xs => rw [applyResort_cons, ih, applyResortStep_map_id]

theorem getY_applyResort (edges : List FlowEdge) (allIds : List String) (fuel : Nat)
    (sortedIds : List String) (origXs : List Int) (nodes : List FlowNode) (j : String) :
    getY (applyResort edges allIds fuel sortedIds origXs nodes) j = getY nodes j := by
  induction sortedIds generalizing origXs nodes with
  | nil => rfl
  | cons i rest ih =>
    cases origXs with
    | nil => rfl
    | cons x xs => rw [applyResort_cons, ih, getY_applyResortStep]

theorem applyResort_untouched (edges : List FlowEdge) (allIds : List String) (fuel : Nat)
    (sortedIds : List String) (origXs : List Int) (nodes : List FlowNode) (j : String)
    (hj1 : ∀ a ∈ sortedIds, j ≠ a)
    (hj2 : ∀ a ∈ sortedIds, j ∉ (getDescendantsF edges allIds fuel a).getD []) :
    getX (applyResort edges allIds fuel sortedIds origXs nodes) j = getX nodes j := by
  induction sortedIds generalizing origXs nodes with
  | nil => rfl
  | cons i rest ih =>
    cases origXs with
    | nil => rfl
    | cons x xs =>
      rw [applyResort_cons]
      rw [ih xs _ (fun a ha => hj1 a (List.mem_cons_of_mem _ ha))
            (fun a ha => hj2 a (List.mem_cons_of_mem _ ha))]
      exact applyResortStep_getX_other edges allIds fuel nodes i x j
        (hj1 i (List.mem_cons_self i rest)) (hj2 i (List.mem_cons_self i rest))

theorem applyResort_getX_nth (edges : List FlowEdge) (allIds : List String) (fuel : Nat)
    (sortedIds : List String) (origXs : List Int) (nodes : List FlowNode)
    (hlen : origXs.length = sortedIds.length)
    (hnd : sortedIds.Nodup)
    (hpres : ∀ a ∈ sortedIds, a ∈ nodes.map (fun n => n.id))
    (hsep : ∀ a ∈ sortedIds, ∀ b ∈ sortedIds,
      b ∉ (getDescendantsF edges allIds fuel a).getD [])
    (i : Nat) (hi : i < sortedIds.length) :
    getX (applyResort edges allIds fuel sortedIds origXs nodes) (sortedIds.get ⟨i, hi⟩) =
      origXs.get ⟨i, by omega⟩ := by
  induction sortedIds generalizing origXs nodes i with
  | nil => exact absurd hi (by simp)
  | cons a rest ih =>
    cases origXs with
    | nil => exact absurd hlen (by simp)
    | cons x xs =>
      rw [applyResort_cons]
      cases i with
      | zero =>
        simp only [List.get]
        rw [applyResort_untouched edges allIds fuel rest xs _ a
              (fun b hb => fun he => (List.nodup_cons.mp hnd).1 (he ▸ hb))
              (fun b hb => hsep b (List.mem_cons_of_mem _ hb) a (List.mem_cons_self a rest))]
        exact applyResortStep_getX_self edges allIds fuel nodes a x
          (hpres a (List.mem_cons_self a rest))
          (hsep a (List.mem_cons_self a rest) a (List.mem_cons_self a rest))
      | succ k =>
        simp only [List.get]
        have hk : k < rest.length := by simpa using hi
        have := ih xs (applyResortStep edges allIds fuel nodes a x)
          (by simpa using hlen)
          (List.nodup_cons.mp hnd).2
          (fun b hb => by
            rw [applyResortStep_map_id]
            exact hpres b (List.mem_cons_of_mem _ hb))
          (fun b hb c hc =>
            hsep b (List.mem_cons_of_mem _ hb) c (List.mem_cons_of_mem _ hc))
          k hk
        exact this

/-- **C1.** For a group of siblings sharing one parent (or roots sharing a
rank) of more than one member, each member recorded in the order map, the
per-group resort of the order-preserving re-layout pass keeps the set of
x-coordinates occupied by the group unchanged (as a multiset) and
reassigns them so that a member with a smaller insertion index ends up
strictly left of a member with a larger one; repeated re-layouts with no
new insertions therefore always reproduce the insertion order, and a root
inserted before another ends up left of it.  Hypotheses: distinct member
ids, members present in the node list, distinct current x-coordinates
(dagre assigns distinct x within a rank), and no member lies in another
member's descendant list (the sibling groups the component builds are
disjoint subtrees). -/
theorem c1_order_preserving_resort
    (edges : List FlowEdge) (allIds : List String) (fuel : Nat)
    (om : List (String × Nat)) (nodes : List FlowNode) (group : List String)
    (hgt : 1 < group.length)
    (hnd : group.Nodup)
    (hpres : ∀ g ∈ group, g ∈ nodes.map (fun n => n.id))
    (_hidx : ∀ g ∈ group, omHas om g = true)
    (hxnd : (group.map (fun g => getX nodes g)).Nodup)
    (hsep : ∀ a ∈ group, ∀ b ∈ group,
      b ∉ (getDescendantsF edges allIds fuel a).getD []) :
    ((group.map (fun g => getX (processGroup edges allIds fuel om nodes group) g)).Perm
        (group.map (fun g => getX nodes g)))
    ∧ (∀ a ∈ group, ∀ b ∈ group, ∀ ra rb, omLookup om a = some ra →
         omLookup om b = some rb → ra < rb →
         getX (processGroup edges allIds fuel om nodes group) a <
           getX (processGroup edges allIds fuel om nodes group) b) := by
  have hne : ¬ group.length ≤ 1 := by omega
  set sortedIds := List.insertionSort (orderLE om) group with hsdef
  set pairs := group.map (fun i => (i, getX nodes i)) with hpdef
  set origPairs := List.insertionSort xLE pairs with hopdef
  set origXs := origPairs.map (fun p => p.2) with hoxdef
  have hpg : processGroup edges allIds fuel om nodes group =
      applyResort edges allIds fuel sortedIds origXs nodes := by
    unfold processGroup
    rw [if_neg hne]
  rw [hpg]
  have hperm : sortedIds.Perm group := List.perm_insertionSort _ group
  have hlen_s : sortedIds.length = group.length := hperm.length_eq
  have hople : origPairs.Perm pairs := List.perm_insertionSort _ pairs
  have hoxlen : origXs.length = group.length := by
    rw [hoxdef, List.length_map, hople.length_eq, hpdef, List.length_map]
  have hnd2 : sortedIds.Nodup := (hperm.nodup_iff).mpr hnd
  have hpres2 : ∀ a ∈ sortedIds, a ∈ nodes.map (fun n => n.id) :=
    fun a ha => hpres a (hperm.mem_iff.mp ha)
  have hsep2 : ∀ a ∈ sortedIds, ∀ b ∈ sortedIds,
      b ∉ (getDescendantsF edges allIds fuel a).getD [] :=
    fun a ha b hb => hsep a (hperm.mem_iff.mp ha) b (hperm.mem_iff.mp hb)
  have hlen2 : origXs.length = sortedIds.length := by omega
  have hnth : ∀ (i : Nat) (hi : i < sortedIds.length),
      getX (applyResort edges allIds fuel sortedIds origXs nodes)
        (sortedIds.get ⟨i, hi⟩) = origXs.get ⟨i, by omega⟩ :=
    fun i hi => applyResort_getX_nth edges allIds fuel sortedIds origXs nodes
      hlen2 hnd2 hpres2 hsep2 i hi
  have hmapeq : sortedIds.map
      (fun g => getX (applyResort edges allIds fuel sortedIds origXs nodes) g) = origXs := by
    apply List.ext_get
    · rw [List.length_map]; omega
    · intro i h1 h2
      have h3 := hnth i (by simpa using h1)
      simpa using h3
  have h3 : origXs.Perm (group.map (fun g => getX nodes g)) := by
    have hm := hople.map (fun p : String × Int => p.2)
    rw [hpdef] at hm
    simpa [List.map_map, Function.comp] using hm
  constructor
  · have h1 : (group.map
        (fun g => getX (applyResort edges allIds fuel sortedIds origXs nodes) g)).Perm
        (sortedIds.map
          (fun g => getX (applyResort edges allIds fuel sortedIds origXs nodes) g)) :=
      (hperm.map _).symm
    rw [hmapeq] at h1
    exact h1.trans h3
  · intro a ha b hb ra rb hra hrb hlt
    have ha2 : a ∈ sortedIds := hperm.mem_iff.mpr ha
    have hb2 : b ∈ sortedIds := hperm.mem_iff.mpr hb
    obtain ⟨ia, hia⟩ := List.mem_iff_get.mp ha2
    obtain ⟨ib, hib⟩ := List.mem_iff_get.mp hb2
    have hsorted : List.Sorted (orderLE om) sortedIds := List.sorted_insertionSort _ group
    have hij : (ia : Nat) < (ib : Nat) := by
      rcases lt_trichotomy (ia : Nat) (ib : Nat) with h | h | h
      · exact h
      · exfalso
        have hab : a = b := by rw [← hia, ← hib]; congr 1; exact Fin.ext h
        rw [hab, hrb] at hra
        have : ra = rb := Option.some.inj hra.symm
        omega
      · exfalso
        have hle := hsorted.rel_get_of_lt (a := ib) (b := ia) h
        rw [hia, hib] at hle
        unfold orderLE orderLEb at hle
        rw [hra, hrb] at hle
        simp at hle
        omega
    have hxsort : List.Sorted (fun x y : Int => x ≤ y) origXs := by
      have hp : List.Sorted xLE origPairs := List.sorted_insertionSort _ pairs
      exact List.Pairwise.map _ (fun p q hpq => hpq) hp
    have hoxnd : origXs.Nodup := (h3.nodup_iff).mpr hxnd
    have e1 : getX (applyResort edges allIds fuel sortedIds origXs nodes) a =
        origXs.get ⟨(ia : Nat), by omega⟩ := by
      rw [← hia]
      exact hnth (ia : Nat) ia.isLt
    have e2 : getX (applyResort edges allIds fuel sortedIds origXs nodes) b =
        origXs.get ⟨(ib : Nat), by omega⟩ := by
      rw [← hib]
      exact hnth (ib : Nat) ib.isLt
    rw [e1, e2]
    have hle : origXs.get ⟨(ia : Nat), by omega⟩ ≤ origXs.get ⟨(ib : Nat), by omega⟩ :=
      hxsort.rel_get_of_lt (by simpa using hij)
    have hne2 : origXs.get ⟨(ia : Nat), by omega⟩ ≠ origXs.get ⟨(ib : Nat), by omega⟩ := by
      intro heq
      have := (hoxnd.get_inj_iff).mp heq
      have : (ia : Nat) = (ib : Nat) := by
        have h2 := congrArg Fin.val this
        simpa using h2
      omega
    exact lt_of_le_of_ne hle hne2

/-! ## Helper lemmas: expansion and promotion -/

theorem more_id_ne (s : String) : s ++ "-more" ≠ s := by
  intro h
  have h2 := congrArg String.length h
  rw [String.length_append] at h2
  have h5 : ("-more" : String).length = 5 := rfl
  omega

theorem processChildrenWithLimit_overflow (cap : Int) (anim : Bool)
    (children : List ChildNode) (parentId : String) (lvl : Nat)
    (h1 : 0 < cap) (h2 : cap < (children.length : Int)) :
    processChildrenWithLimit cap anim children parentId lvl =
      { visibleNodes := (children.take (cap - 1).toNat).map
          (mkChildFlowNode anim parentId lvl),
        hiddenNodes := children.drop (cap - 1).toNat,
        moreNode := some
          { id := parentId ++ "-more", ntype := "more", x := 0, y := 0,
            data :=
              { id := parentId ++ "-more",
                label := toString (children.drop (cap - 1).toNat).length ++ " more",
                type := some "more", parentId := some parentId, level := lvl + 1,
                isMoreNode := true, hiddenNodes := children.drop (cap - 1).toNat,
                originalParentId := some parentId } } } := by
  unfold processChildrenWithLimit
  rw [if_neg]
  push_neg
  exact ⟨by omega, by omega⟩

theorem processChildrenWithLimit_fits (cap : Int) (anim : Bool)
    (children : List ChildNode) (parentId : String) (lvl : Nat)
    (h : cap ≤ 0 ∨ (children.length : Int) ≤ cap) :
    processChildrenWithLimit cap anim children parentId lvl =
      { visibleNodes := children.map (mkChildFlowNode anim parentId lvl),
        hiddenNodes := [], moreNode := none } := by
  unfold processChildrenWithLimit
  rw [if_pos]
  rcases h with h | h
  · exact Or.inl (by omega)
  · exact Or.inr h

theorem expandSuccess_nodes (cap : Int) (anim : Bool) (st : GraphState)
    (nodeId : String) (lvl : Nat) (children : List ChildNode) :
    (expandSuccess cap anim st nodeId lvl children).nodes =
      (st.nodes.map (fun n =>
        if n.id == nodeId then
          { n with data := { n.data with isLoading := false, isExpanded := true } }
        else n)) ++
      (match (processChildrenWithLimit cap anim children nodeId lvl).moreNode with
        | some m => (processChildrenWithLimit cap anim children nodeId lvl).visibleNodes ++ [m]
        | none => (processChildrenWithLimit cap anim children nodeId lvl).visibleNodes) := rfl

theorem expandSuccess_edges (cap : Int) (anim : Bool) (st : GraphState)
    (nodeId : String) (lvl : Nat) (children : List ChildNode) :
    (expandSuccess cap anim st nodeId lvl children).edges =
      st.edges ++
      ((match (processChildrenWithLimit cap anim children nodeId lvl).moreNode with
        | some m => (processChildrenWithLimit cap anim children nodeId lvl).visibleNodes ++ [m]
        | none => (processChildrenWithLimit cap anim children nodeId lvl).visibleNodes).map
        (fun c : FlowNode => mkChildEdge nodeId c.id)) := rfl

/-- **C5 (code evaluation).** The decision prefix of `handleNodeClick`
never consults `isLoading`: a click on a node that is still loading
(`isLoading = true`, `isExpanded = false`, not an overflow node, with an
expansion callback installed) is sent to the fetch branch again, so a
second child-fetch is invoked instead of the activation being ignored. -/
theorem c5_reentrant_click_starts_second_fetch :
    handleNodeClickAction true
      { id := "n1", label := "N1", isLoading := true, isExpanded := false } =
      ClickAction.startFetch := rfl

/-- **C9 (counterexample).** An overflow promotion whose referenced parent
is not in the current node set does not fail loudly: `handleSelectHiddenNode`
returns with the state bit-for-bit unchanged (`if (!parentNode) return;`),
no assertion and no error report.  Here the state holds only node `"Q"`
and the promotion references parent `"P"`. -/
theorem c9_counterexample_silent_noop :
    promoteHiddenNode false
      { nodes := [{ id := "Q", data := { id := "Q", label := "Q" } }], edges := [],
        orderMap := [("Q", 0)] }
      "P" { id := "c1", label := "C1" } [] =
      { nodes := [{ id := "Q", data := { id := "Q", label := "Q" } }], edges := [],
        orderMap := [("Q", 0)] } := by decide

/-- **C9 (amended).** A promotion referencing a parent id absent from the
current node set is silently ignored: the state is returned unchanged and
no error is raised; referential inconsistencies are tolerated rather than
escalated. -/
theorem c9_amended_missing_parent_ignored (isAnimated : Bool) (st : GraphState)
    (parentNodeId : String) (selectedNode : ChildNode)
    (remainingHiddenNodes : List ChildNode)
    (h : st.nodes.find? (fun n => n.id == parentNodeId) = none) :
    promoteHiddenNode isAnimated st parentNodeId selectedNode remainingHiddenNodes = st := by
  unfold promoteHiddenNode
  rw [h]

/-- Witness for `c9_amended_missing_parent_ignored` at a concrete input. -/
theorem c9_amended_witness :
    promoteHiddenNode false { nodes := [], edges := [], orderMap := [] } "P"
      { id := "c1", label := "C1" } [] = { nodes := [], edges := [], orderMap := [] } :=
  c9_amended_missing_parent_ignored false
    { nodes := [], edges := [], orderMap := [] } "P" { id := "c1", label := "C1" } [] rfl

theorem processChildrenWithLimit_visible_ids (cap : Int) (anim : Bool)
    (children : List ChildNode) (parentId : String) (lvl : Nat) :
    ∀ nd ∈ (processChildrenWithLimit cap anim children parentId lvl).visibleNodes,
      ∃ c ∈ children, nd.id = c.id := by
  intro nd hnd
  unfold processChildrenWithLimit at hnd
  split at hnd
  · simp only at hnd
    rcases List.mem_map.mp hnd with ⟨c, hc, heq⟩
    exact ⟨c, hc, by rw [← heq]; rfl⟩
  · simp only at hnd
    rcases List.mem_map.mp hnd with ⟨c, hc, heq⟩
    exact ⟨c, List.take_subset _ _ hc, by rw [← heq]; rfl⟩

theorem processChildrenWithLimit_more_id (cap : Int) (anim : Bool)
    (children : List ChildNode) (parentId : String) (lvl : Nat) (m : FlowNode)
    (hm : (processChildrenWithLimit cap anim children parentId lvl).moreNode = some m) :
    m.id = parentId ++ "-more" := by
  unfold processChildrenWithLimit at hm
  split at hm
  · exact absurd hm (by simp)
  · simp only [Option.some.injEq] at hm
    rw [← hm]

/-- **C3.** When an expansion fetch returns `n` children: if `n` exceeds
the cap (cap ≥ 1), exactly the first `cap - 1` children in source order
become plain child nodes, the remaining `n - (cap - 1)` are stored in one
overflow node whose id is the parent id suffixed `-more`, and exactly
`cap` new edges are created; if `n` is at most the cap all `n` become
plain nodes with no overflow node and `n` new edges; in both cases the
activated parent ends up `isExpanded = true` and `isLoading = false`. -/
theorem c3_visible_cap_truncation (cap : Int) (anim : Bool) (st : GraphState)
    (nodeId : String) (lvl : Nat) (children : List ChildNode)
    (hcap : 1 ≤ cap)
    (hfresh : ∀ c ∈ children, c.id ≠ nodeId) :
    (cap < (children.length : Int) →
        ((processChildrenWithLimit cap anim children nodeId lvl).visibleNodes.map
            (fun n => n.id) = (children.take (cap - 1).toNat).map (fun c => c.id))
      ∧ (processChildrenWithLimit cap anim children nodeId lvl).visibleNodes.length =
          (cap - 1).toNat
      ∧ (∃ m, (processChildrenWithLimit cap anim children nodeId lvl).moreNode = some m
          ∧ m.id = nodeId ++ "-more"
          ∧ m.data.isMoreNode = true
          ∧ m.data.hiddenNodes = children.drop (cap - 1).toNat
          ∧ m.data.hiddenNodes.length = children.length - (cap - 1).toNat)
      ∧ (expandSuccess cap anim st nodeId lvl children).edges.length =
          st.edges.length + cap.toNat)
    ∧ ((children.length : Int) ≤ cap →
        ((processChildrenWithLimit cap anim children nodeId lvl).visibleNodes.map
            (fun n => n.id) = children.map (fun c => c.id))
      ∧ (processChildrenWithLimit cap anim children nodeId lvl).moreNode = none
      ∧ (expandSuccess cap anim st nodeId lvl children).edges.length =
          st.edges.length + children.length)
    ∧ (∀ nd ∈ (expandSuccess cap anim st nodeId lvl children).nodes,
        nd.id = nodeId → nd.data.isExpanded = true ∧ nd.data.isLoading = false) := by
  refine ⟨?_, ?_, ?_⟩
  · intro hlt
    rw [processChildrenWithLimit_overflow cap anim children nodeId lvl (by omega) hlt,
        expandSuccess_edges,
        processChildrenWithLimit_overflow cap anim children nodeId lvl (by omega) hlt]
    refine ⟨?_, ?_, ⟨_, rfl, rfl, rfl, rfl, ?_⟩, ?_⟩
    · rw [List.map_map]
      apply List.map_congr_left
      intro c _
      rfl
    · have hlen : (cap - 1).toNat ≤ children.length := by omega
      simp [List.length_take, Nat.min_eq_left hlen]
      omega
    · simp [List.length_drop]
    · have hlen : (cap - 1).toNat ≤ children.length := by omega
      simp [List.length_append, List.length_map, List.length_take, Nat.min_eq_left hlen]
      omega
  · intro hle
    rw [processChildrenWithLimit_fits cap anim children nodeId lvl (Or.inr hle),
        expandSuccess_edges,
        processChildrenWithLimit_fits cap anim children nodeId lvl (Or.inr hle)]
    refine ⟨?_, rfl, ?_⟩
    · simp [List.map_map, mkChildFlowNode]
    · simp [List.length_append, List.length_map]
  · intro nd hnd hid
    rw [expandSuccess_nodes] at hnd
    rcases List.mem_append.mp hnd with hl | hr
    · rcases List.mem_map.mp hl with ⟨n, hn, heq⟩
      by_cases hb : n.id = nodeId
      · rw [← heq]
        simp [hb]
      · exfalso
        have : nd = n := by rw [← heq]; simp [hb]
        rw [this] at hid
        exact hb hid
    · exfalso
      rcases hm : (processChildrenWithLimit cap anim children nodeId lvl).moreNode with _ | m
      · rw [hm] at hr
        rcases processChildrenWithLimit_visible_ids cap anim children nodeId lvl nd hr
          with ⟨c, hc, hcid⟩
        exact hfresh c hc (by rw [← hcid, hid])
      · rw [hm] at hr
        rcases List.mem_append.mp hr with hv | hone
        · rcases processChildrenWithLimit_visible_ids cap anim children nodeId lvl nd hv
            with ⟨c, hc, hcid⟩
          exact hfresh c hc (by rw [← hcid, hid])
        · have : nd = m := by simpa using hone
          rw [this] at hid
          exact more_id_ne nodeId
            (by rw [← processChildrenWithLimit_more_id cap anim children nodeId lvl m hm, hid])

/-- Witness for `c3_visible_cap_truncation`: 7 children with cap 5 under
root `R`. -/
theorem c3_witness :
    ((1 : Int) ≤ 5)
    ∧ (∀ c ∈ c3Kids, c.id ≠ "R")
    ∧ (((5 : Int) < (c3Kids.length : Int) →
        ((processChildrenWithLimit 5 false c3Kids "R" 0).visibleNodes.map
            (fun n => n.id) = (c3Kids.take ((5 : Int) - 1).toNat).map (fun c => c.id))
      ∧ (processChildrenWithLimit 5 false c3Kids "R" 0).visibleNodes.length =
          ((5 : Int) - 1).toNat
      ∧ (∃ m, (processChildrenWithLimit 5 false c3Kids "R" 0).moreNode = some m
          ∧ m.id = "R" ++ "-more"
          ∧ m.data.isMoreNode = true
          ∧ m.data.hiddenNodes = c3Kids.drop ((5 : Int) - 1).toNat
          ∧ m.data.hiddenNodes.length = c3Kids.length - ((5 : Int) - 1).toNat)
      ∧ (expandSuccess 5 false c3State "R" 0 c3Kids).edges.length =
          c3State.edges.length + (5 : Int).toNat)
    ∧ ((c3Kids.length : Int) ≤ 5 →
        ((processChildrenWithLimit 5 false c3Kids "R" 0).visibleNodes.map
            (fun n => n.id) = c3Kids.map (fun c => c.id))
      ∧ (processChildrenWithLimit 5 false c3Kids "R" 0).moreNode = none
      ∧ (expandSuccess 5 false c3State "R" 0 c3Kids).edges.length =
          c3State.edges.length + c3Kids.length)
    ∧ (∀ nd ∈ (expandSuccess 5 false c3State "R" 0 c3Kids).nodes,
        nd.id = "R" → nd.data.isExpanded = true ∧ nd.data.isLoading = false)) :=
  ⟨by decide, by decide,
   c3_visible_cap_truncation 5 false c3State "R" 0 c3Kids (by decide) (by decide)⟩

/-- **C6.** When the child-fetch of an activation rejects: the activated
node's loading flag is cleared while `isExpanded` stays false, the error
is reported to the `onError` capability with the node id and the
`"expand"` action tag, and the node and edge sets are structurally
unchanged (the node array is only re-sorted, the edge array untouched). -/
theorem c6_expansion_failure_resets (st : GraphState) (nodeId : String)
    (hexp : ∀ n ∈ st.nodes, n.id = nodeId → n.data.isExpanded = false) :
    (expandFailure true st nodeId).2 = some { nodeId := nodeId, action := "expand" }
    ∧ (expandFailure true st nodeId).1.edges = st.edges
    ∧ (((expandFailure true st nodeId).1.nodes.map (fun n => n.id)).Perm
        (st.nodes.map (fun n => n.id)))
    ∧ (∀ n ∈ (expandFailure true st nodeId).1.nodes,
        n.id = nodeId → n.data.isLoading = false ∧ n.data.isExpanded = false)
    ∧ (∀ n ∈ (expandFailure true st nodeId).1.nodes, n.id ≠ nodeId → n ∈ st.nodes) := by
  have hperm : (expandFailure true st nodeId).1.nodes.Perm
      (st.nodes.map (fun n =>
        if n.id == nodeId then { n with data := { n.data with isLoading := false } }
        else n)) := List.perm_insertionSort _ _
  refine ⟨rfl, rfl, ?_, ?_, ?_⟩
  · have h1 := hperm.map (fun n => n.id)
    have h2 : (st.nodes.map (fun n =>
        if n.id == nodeId then { n with data := { n.data with isLoading := false } }
        else n)).map (fun n => n.id) = st.nodes.map (fun n => n.id) := by
      rw [List.map_map]
      apply List.map_congr_left
      intro n _
      by_cases h : n.id = nodeId <;> simp [h]
    rw [h2] at h1
    exact h1
  · intro n hn hid
    have hm := hperm.mem_iff.mp hn
    rcases List.mem_map.mp hm with ⟨n0, hn0, heq⟩
    by_cases hb : n0.id = nodeId
    · rw [← heq]
      have hbeq : (n0.id == nodeId) = true := by simp [hb]
      simp only [hbeq, if_true]
      exact ⟨trivial, hexp n0 hn0 hb⟩
    · exfalso
      have hnn : n = n0 := by rw [← heq]; simp [hb]
      rw [hnn] at hid
      exact hb hid
  · intro n hn hid
    have hm := hperm.mem_iff.mp hn
    rcases List.mem_map.mp hm with ⟨n0, hn0, heq⟩
    by_cases hb : n0.id = nodeId
    · exfalso
      have : n.id = nodeId := by rw [← heq]; simp [hb]
      exact hid this
    · have hnn : n = n0 := by rw [← heq]; simp [hb]
      rw [hnn]
      exact hn0

/-- Witness for `c6_expansion_failure_resets` on a concrete two-node
state. -/
theorem c6_witness :
    (∀ n ∈ c6State.nodes, n.id = "R" → n.data.isExpanded = false)
    ∧ ((expandFailure true c6State "R").2 = some { nodeId := "R", action := "expand" }
    ∧ (expandFailure true c6State "R").1.edges = c6State.edges
    ∧ (((expandFailure true c6State "R").1.nodes.map (fun n => n.id)).Perm
        (c6State.nodes.map (fun n => n.id)))
    ∧ (∀ n ∈ (expandFailure true c6State "R").1.nodes,
        n.id = "R" → n.data.isLoading = false ∧ n.data.isExpanded = false)
    ∧ (∀ n ∈ (expandFailure true c6State "R").1.nodes, n.id ≠ "R" → n ∈ c6State.nodes)) :=
  ⟨by decide, c6_expansion_failure_resets c6State "R" (by decide)⟩

theorem computeRemaining_perm (hidden : List ChildNode) (s : ChildNode)
    (hnd : (hidden.map (fun c => c.id)).Nodup) (hs : s ∈ hidden) :
    (s :: computeRemaining hidden s).Perm hidden := by
  induction hidden with
  | nil => cases hs
  | cons t rest ih =>
    rw [List.map_cons, List.nodup_cons] at hnd
    by_cases hts : t.id = s.id
    · have hteq : t = s := by
        rcases List.mem_cons.mp hs with h | h
        · exact h.symm
        · exfalso
          exact hnd.1 (hts ▸ (List.mem_map.mpr ⟨s, h, rfl⟩))
      subst hteq
      have hrest : computeRemaining (t :: rest) t = rest := by
        unfold computeRemaining
        rw [List.filter_cons]
        simp only [beq_self_eq_true, Bool.not_true]
        rw [if_neg (by simp)]
        apply List.filter_eq_self.mpr
        intro n hn
        simp only [Bool.not_eq_true']
        have : n.id ≠ t.id := by
          intro he
          exact hnd.1 (he ▸ (List.mem_map.mpr ⟨n, hn, rfl⟩))
        simp [this]
      rw [hrest]
    · have hsrest : s ∈ rest := by
        rcases List.mem_cons.mp hs with h | h
        · exact absurd (congrArg (fun c => c.id) h.symm) hts
        · exact h
      have hhead : computeRemaining (t :: rest) s = t :: computeRemaining rest s := by
        unfold computeRemaining
        rw [List.filter_cons]
        rw [if_pos (by simp [hts])]
      rw [hhead]
      exact (List.Perm.swap t s (computeRemaining rest s)).trans
        (List.Perm.cons t (ih hnd.2 hsrest))

theorem computeRemaining_ids_nodup (hidden : List ChildNode) (s : ChildNode)
    (hnd : (hidden.map (fun c => c.id)).Nodup) :
    ((computeRemaining hidden s).map (fun c => c.id)).Nodup :=
  List.Nodup.sublist (List.Sublist.map _ (List.filter_sublist hidden)) hnd

theorem promoteSeq_conservation (sels : List ChildNode) (h0 p0 h p : List ChildNode)
    (hnd : (h0.map (fun c => c.id)).Nodup)
    (hrun : promoteSeq (h0, p0) sels = some (h, p)) :
    (h ++ p).Perm (h0 ++ p0) := by
  induction sels generalizing h0 p0 with
  | nil =>
    unfold promoteSeq at hrun
    have := Option.some.inj hrun
    rw [Prod.mk.injEq] at this
    rw [this.1, this.2]
  | cons s rest ih =>
    unfold promoteSeq at hrun
    split at hrun
    · have hs : s ∈ h0 := by
        rename_i hc
        simpa using hc
      have hstep := ih (computeRemaining h0 s) (p0 ++ [s])
        (computeRemaining_ids_nodup h0 s hnd) hrun
      have hassoc : computeRemaining h0 s ++ (p0 ++ [s]) =
          (computeRemaining h0 s ++ p0) ++ [s] := by rw [List.append_assoc]
      rw [hassoc] at hstep
      refine hstep.trans ?_
      refine (List.perm_append_singleton s (computeRemaining h0 s ++ p0)).trans ?_
      have : s :: (computeRemaining h0 s ++ p0) = (s :: computeRemaining h0 s) ++ p0 := rfl
      rw [this]
      exact (computeRemaining_perm h0 s hnd hs).append_right p0
    · cases hrun

theorem promoteHiddenNode_found (anim : Bool) (st : GraphState) (pid : String)
    (sel : ChildNode) (rem : List ChildNode) (parentNode : FlowNode)
    (hfind : st.nodes.find? (fun n => n.id == pid) = some parentNode) :
    promoteHiddenNode anim st pid sel rem =
      { nodes :=
          if rem.length = 0 then
            (st.nodes.filter (fun n => !(n.id == pid ++ "-more"))) ++
              [mkChildFlowNode anim pid parentNode.data.level sel]
          else
            (st.nodes.map (fun n =>
              if n.id == pid ++ "-more" then
                { n with data := { n.data with
                    label := toString rem.length ++ " more",
                    hiddenNodes := rem } }
              else n)) ++ [mkChildFlowNode anim pid parentNode.data.level sel],
        edges :=
          if rem.length = 0 then
            (st.edges.filter (fun e => !(e.target == pid ++ "-more"))) ++
              [mkChildEdge pid sel.id]
          else st.edges ++ [mkChildEdge pid sel.id],
        orderMap := assignOrderIndices st.orderMap
          [mkChildFlowNode anim pid parentNode.data.level sel] } := by
  unfold promoteHiddenNode
  rw [hfind]

/-- **C4.** Overflow conservation: (1) along any sequence of promotions,
each selecting a child of the current hidden list (the remaining list is
computed by `MoreNode.handleSelectNode` as a filter on the selected id),
the still-hidden and promoted-out children together are a permutation of
the original hidden set — nothing is lost or duplicated, and the counts
always add up; (2) promoting the last remaining hidden child removes the
overflow node and every edge into it from the node/edge set; (3)
promoting a non-last child keeps the overflow node, storing exactly the
remaining list and the updated `"n more"` label, and only appends the one
new edge. -/
theorem c4_overflow_conservation :
    (∀ (orig sels h p : List ChildNode),
        (orig.map (fun c => c.id)).Nodup →
        promoteSeq (orig, []) sels = some (h, p) →
        (h ++ p).Perm orig ∧ h.length + p.length = orig.length)
    ∧ (∀ (anim : Bool) (st : GraphState) (pid : String) (sel : ChildNode)
         (parentNode : FlowNode),
        st.nodes.find? (fun n => n.id == pid) = some parentNode →
        sel.id ≠ pid ++ "-more" →
        ((pid ++ "-more") ∉
            (promoteHiddenNode anim st pid sel []).nodes.map (fun n => n.id)
          ∧ (∀ e ∈ (promoteHiddenNode anim st pid sel []).edges,
              e.target ≠ pid ++ "-more")))
    ∧ (∀ (anim : Bool) (st : GraphState) (pid : String) (sel : ChildNode)
         (parentNode : FlowNode) (rem : List ChildNode),
        st.nodes.find? (fun n => n.id == pid) = some parentNode →
        rem ≠ [] → sel.id ≠ pid ++ "-more" →
        (∀ n ∈ (promoteHiddenNode anim st pid sel rem).nodes,
          n.id = pid ++ "-more" →
            n.data.hiddenNodes = rem ∧ n.data.label = toString rem.length ++ " more")
        ∧ (promoteHiddenNode anim st pid sel rem).edges.length = st.edges.length + 1) := by
  refine ⟨?_, ?_, ?_⟩
  · intro orig sels h p hnd hrun
    have hperm := promoteSeq_conservation sels orig [] h p hnd hrun
    rw [List.append_nil] at hperm
    refine ⟨hperm, ?_⟩
    have := hperm.length_eq
    simpa using this
  · intro anim st pid sel parentNode hfind hsel
    rw [promoteHiddenNode_found anim st pid sel [] parentNode hfind]
    simp only [List.length_nil, if_pos rfl]
    constructor
    · intro hmem
      rcases List.mem_map.mp hmem with ⟨n, hn, hid⟩
      rcases List.mem_append.mp hn with hl | hr
      · have hcond := List.of_mem_filter hl
        rw [hid] at hcond
        simp at hcond
      · have : n = mkChildFlowNode anim pid parentNode.data.level sel := by simpa using hr
        rw [this] at hid
        exact hsel hid
    · intro e he het
      rcases List.mem_append.mp he with hl | hr
      · have hcond := List.of_mem_filter hl
        rw [het] at hcond
        simp at hcond
      · have : e = mkChildEdge pid sel.id := by simpa using hr
        rw [this] at het
        exact hsel het
  · intro anim st pid sel parentNode rem hfind hrem hsel
    rw [promoteHiddenNode_found anim st pid sel rem parentNode hfind]
    have hlen : ¬ rem.length = 0 := by
      intro h
      exact hrem (List.length_eq_zero.mp h)
    simp only [if_neg hlen]
    constructor
    · intro n hn hid
      rcases List.mem_append.mp hn with hl | hr
      · rcases List.mem_map.mp hl with ⟨n0, _, heq⟩
        by_cases hb : n0.id = pid ++ "-more"
        · rw [← heq]
          have hbeq : (n0.id == pid ++ "-more") = true := by simp [hb]
          simp [hbeq]
        · exfalso
          have : n = n0 := by rw [← heq]; simp [hb]
          rw [this] at hid
          exact hb hid
      · exfalso
        have : n = mkChildFlowNode anim pid parentNode.data.level sel := by simpa using hr
        rw [this] at hid
        exact hsel hid
    · simp

/-- Witness for `c4_overflow_conservation` at concrete inputs: promoting
`"b"` out of `[a, b, c]`, a last-child promotion and a non-last
promotion on a concrete parent/overflow state. -/
theorem c4_witness :
    (([{ id := "a", label := "A" }, { id := "c", label := "C" }] ++
        [{ id := "b", label := "B" }] : List ChildNode).Perm c4Hidden
      ∧ ([{ id := "a", label := "A" }, { id := "c", label := "C" }] :
          List ChildNode).length +
          ([{ id := "b", label := "B" }] : List ChildNode).length = c4Hidden.length)
    ∧ (("P" ++ "-more") ∉
          (promoteHiddenNode false c4State "P" { id := "b", label := "B" } []).nodes.map
            (fun n => n.id)
        ∧ (∀ e ∈ (promoteHiddenNode false c4State "P" { id := "b", label := "B" } []).edges,
            e.target ≠ "P" ++ "-more"))
    ∧ ((∀ n ∈ (promoteHiddenNode false c4State "P" { id := "b", label := "B" }
          [{ id := "c", label := "C" }]).nodes,
          n.id = "P" ++ "-more" →
            n.data.hiddenNodes = [{ id := "c", label := "C" }]
            ∧ n.data.label = toString ([{ id := "c", label := "C" }] :
                List ChildNode).length ++ " more")
        ∧ (promoteHiddenNode false c4State "P" { id := "b", label := "B" }
            [{ id := "c", label := "C" }]).edges.length = c4State.edges.length + 1) :=
  ⟨c4_overflow_conservation.1 c4Hidden [{ id := "b", label := "B" }]
      [{ id := "a", label := "A" }, { id := "c", label := "C" }]
      [{ id := "b", label := "B" }] (by decide) (by decide),
   c4_overflow_conservation.2.1 false c4State "P" { id := "b", label := "B" } c4Parent
      (by decide) (by decide),
   c4_overflow_conservation.2.2 false c4State "P" { id := "b", label := "B" } c4Parent
      [{ id := "c", label := "C" }] (by decide) (by decide) (by decide)⟩

/-! ## Helper lemmas: order bookkeeping -/

theorem omLookup_cons (q : String × Nat) (rest : List (String × Nat)) (i : String) :
    omLookup (q :: rest) i = if q.1 == i then some q.2 else omLookup rest i := by
  unfold omLookup
  simp only [List.find?_cons]
  by_cases h : (q.1 == i) = true <;> simp [h]

theorem omHas_cons (q : String × Nat) (rest : List (String × Nat)) (i : String) :
    omHas (q :: rest) i = if q.1 == i then true else omHas rest i := by
  unfold omHas
  rw [omLookup_cons]
  by_cases h : (q.1 == i) = true <;> simp [h]

theorem omHas_eq_contains (om : List (String × Nat)) (i : String) :
    omHas om i = (om.map (fun p => p.1)).contains i := by
  induction om with
  | nil => rfl
  | cons q rest ih =>
    rw [omHas_cons, List.map_cons, List.contains_cons]
    by_cases h : q.1 = i
    · simp [h]
    · have h2 : (i == q.1) = false := by
        simp only [beq_eq_false_iff_ne]
        exact fun he => h he.symm
      simp [h, h2, ih]

theorem assignOrderIndices_cons (om : List (String × Nat)) (n : FlowNode)
    (rest : List FlowNode) :
    assignOrderIndices om (n :: rest) =
      assignOrderIndices (if omHas om n.id then om else om ++ [(n.id, om.length)]) rest := rfl

theorem freshIds_nil (keys : List String) : freshIds keys [] = [] := rfl

theorem freshIds_cons (keys : List String) (i : String) (rest : List String) :
    freshIds keys (i :: rest) =
      if keys.contains i then freshIds keys rest
      else i :: freshIds (keys ++ [i]) rest := rfl

theorem enumFrom_cons (k : Nat) (i : String) (rest : List String) :
    enumFrom k (i :: rest) = (i, k) :: enumFrom (k + 1) rest := rfl

theorem assignOrderIndices_eq (om : List (String × Nat)) (ns : List FlowNode) :
    assignOrderIndices om ns =
      om ++ enumFrom om.length
        (freshIds (om.map (fun p => p.1)) (ns.map (fun n => n.id))) := by
  induction ns generalizing om with
  | nil => simp [assignOrderIndices, freshIds, enumFrom]
  | cons n rest ih =>
    rw [assignOrderIndices_cons, List.map_cons, freshIds_cons]
    by_cases h : omHas om n.id = true
    · have hc : (om.map (fun p => p.1)).contains n.id = true := by
        rw [← omHas_eq_contains]; exact h
      rw [if_pos h, if_pos hc, ih om]
    · have hc : (om.map (fun p => p.1)).contains n.id = false := by
        rw [← omHas_eq_contains]; simpa using h
      rw [if_neg h, if_neg (by rw [hc]; simp), ih (om ++ [(n.id, om.length)])]
      rw [List.map_append, List.length_append]
      simp only [List.map_cons, List.map_nil, List.length_cons, List.length_nil,
        Nat.zero_add]
      rw [enumFrom_cons, List.append_assoc]
      rfl

theorem omHas_append (om l : List (String × Nat)) (i : String) :
    omHas (om ++ l) i = (omHas om i || omHas l i) := by
  induction om with
  | nil => rfl
  | cons q rest ih =>
    rw [List.cons_append, omHas_cons, omHas_cons, ih]
    by_cases h : (q.1 == i) = true <;> simp [h]

theorem freshIds_mem (ids : List String) (keys : List String) (i : String)
    (hi : i ∈ ids) (hk : keys.contains i = false) : i ∈ freshIds keys ids := by
  induction ids generalizing keys with
  | nil => cases hi
  | cons j rest ih =>
    rw [freshIds_cons]
    by_cases hij : i = j
    · subst hij
      rw [if_neg (by rw [hk]; simp)]
      exact List.mem_cons_self i _
    · have hir : i ∈ rest := by
        rcases List.mem_cons.mp hi with h | h
        · exact absurd h hij
        · exact h
      by_cases hc : keys.contains j = true
      · rw [if_pos hc]
        exact ih keys hir hk
      · rw [if_neg hc]
        refine List.mem_cons_of_mem j (ih (keys ++ [j]) hir ?_)
        have hk2 : i ∉ keys := by simpa using hk
        simp [hij, hk2]

theorem omHas_enumFrom (ids : List String) (k : Nat) (i : String) (hi : i ∈ ids) :
    omHas (enumFrom k ids) i = true := by
  induction ids generalizing k with
  | nil => cases hi
  | cons j rest ih =>
    rw [enumFrom_cons, omHas_cons]
    by_cases h : (j == i) = true
    · simp [h]
    · rw [if_neg (by simpa using h)]
      refine ih (k + 1) ?_
      rcases List.mem_cons.mp hi with he | he
      · exact absurd (by simp [he]) h
      · exact he

theorem omHas_assignOrderIndices (om : List (String × Nat)) (ns : List FlowNode)
    (n : FlowNode) (hn : n ∈ ns) :
    omHas (assignOrderIndices om ns) n.id = true := by
  rw [assignOrderIndices_eq, omHas_append]
  by_cases h : omHas om n.id = true
  · simp [h]
  · have hk : (om.map (fun p => p.1)).contains n.id = false := by
      rw [← omHas_eq_contains]; simpa using h
    have hmem : n.id ∈ freshIds (om.map (fun p => p.1)) (ns.map (fun n => n.id)) :=
      freshIds_mem _ _ _ (List.mem_map.mpr ⟨n, hn, rfl⟩) hk
    rw [omHas_enumFrom _ om.length n.id hmem]
    simp

/-- **C10 (counterexample).** `handleNodesChange` does not assign order
indices: applying a change list that adds a node with the unseen id `"b"`
leaves the order map untouched (`"b"` gets no index) even though the
stored node array now contains `"b"` — contradicting the claim that every
collection-replacing operation first indexes every new id. -/
theorem c10_counterexample_changes_skip_indexing :
    (handleNodesChange [("a", 0)]
        (fun ns => ns ++ [{ id := "b", data := { id := "b", label := "B" } }])
        [{ id := "a", data := { id := "a", label := "A" } }]).2 = [("a", 0)]
    ∧ omHas [("a", 0)] "b" = false
    ∧ "b" ∈ ((handleNodesChange [("a", 0)]
        (fun ns => ns ++ [{ id := "b", data := { id := "b", label := "B" } }])
        [{ id := "a", data := { id := "a", label := "A" } }]).1.map (fun n => n.id)) :=
  ⟨rfl, by decide, by decide⟩

/-- **C10 (amended).** `setNodesWithOrder` first extends the order map
with one fresh consecutive index per not-yet-seen id (starting at the
current map size) and stores the array sorted ascending by order index;
`handleNodesChange` leaves the order map untouched and only re-sorts the
changed array by the existing map (ids absent from the map sort last,
encoded in the comparator).  In both cases the stored array is a
permutation of the incoming array, sorted by the order comparator. -/
theorem c10_amended_order_maintenance :
    (∀ (om : List (String × Nat)) (ns : List FlowNode),
        (setNodesWithOrder om ns).2 =
          om ++ enumFrom om.length
            (freshIds (om.map (fun p => p.1)) (ns.map (fun n => n.id)))
      ∧ (setNodesWithOrder om ns).1.Perm ns
      ∧ List.Sorted (nodeOrderLE (setNodesWithOrder om ns).2) (setNodesWithOrder om ns).1
      ∧ (∀ n ∈ ns, omHas (setNodesWithOrder om ns).2 n.id = true))
    ∧ (∀ (om : List (String × Nat)) (applyChanges : List FlowNode → List FlowNode)
         (current : List FlowNode),
        (handleNodesChange om applyChanges current).2 = om
      ∧ (handleNodesChange om applyChanges current).1.Perm (applyChanges current)
      ∧ List.Sorted (nodeOrderLE om) (handleNodesChange om applyChanges current).1) := by
  constructor
  · intro om ns
    refine ⟨assignOrderIndices_eq om ns, List.perm_insertionSort _ ns,
      List.sorted_insertionSort _ ns, ?_⟩
    intro n hn
    exact omHas_assignOrderIndices om ns n hn
  · intro om applyChanges current
    exact ⟨rfl, List.perm_insertionSort _ _, List.sorted_insertionSort _ _⟩

/-- Witness for `c10_amended_order_maintenance` at concrete inputs. -/
theorem c10_witness :
    ((setNodesWithOrder [("a", 0)]
          [{ id := "b", data := { id := "b", label := "B" } },
           { id := "a", data := { id := "a", label := "A" } }]).2 =
        [("a", 0)] ++ enumFrom ([("a", 0)] : List (String × Nat)).length
          (freshIds (([("a", 0)] : List (String × Nat)).map (fun p => p.1))
            (([{ id := "b", data := { id := "b", label := "B" } },
               { id := "a", data := { id := "a", label := "A" } }] :
                List FlowNode).map (fun n => n.id)))
      ∧ (setNodesWithOrder [("a", 0)]
          [{ id := "b", data := { id := "b", label := "B" } },
           { id := "a", data := { id := "a", label := "A" } }]).1.Perm
          [{ id := "b", data := { id := "b", label := "B" } },
           { id := "a", data := { id := "a", label := "A" } }]
      ∧ List.Sorted (nodeOrderLE (setNodesWithOrder [("a", 0)]
          [{ id := "b", data := { id := "b", label := "B" } },
           { id := "a", data := { id := "a", label := "A" } }]).2)
          (setNodesWithOrder [("a", 0)]
          [{ id := "b", data := { id := "b", label := "B" } },
           { id := "a", data := { id := "a", label := "A" } }]).1
      ∧ (∀ n ∈ ([{ id := "b", data := { id := "b", label := "B" } },
           { id := "a", data := { id := "a", label := "A" } }] : List FlowNode),
          omHas (setNodesWithOrder [("a", 0)]
            [{ id := "b", data := { id := "b", label := "B" } },
             { id := "a", data := { id := "a", label := "A" } }]).2 n.id = true))
    ∧ ((handleNodesChange [("a", 0)] (fun ns => ns)
          [{ id := "a", data := { id := "a", label := "A" } }]).2 = [("a", 0)]
      ∧ (handleNodesChange [("a", 0)] (fun ns => ns)
          [{ id := "a", data := { id := "a", label := "A" } }]).1.Perm
          ((fun ns => ns) [{ id := "a", data := { id := "a", label := "A" } }])
      ∧ List.Sorted (nodeOrderLE [("a", 0)])
          (handleNodesChange [("a", 0)] (fun ns => ns)
            [{ id := "a", data := { id := "a", label := "A" } }]).1) :=
  ⟨c10_amended_order_maintenance.1 [("a", 0)]
      [{ id := "b", data := { id := "b", label := "B" } },
       { id := "a", data := { id := "a", label := "A" } }],
   c10_amended_order_maintenance.2 [("a", 0)] (fun ns => ns)
      [{ id := "a", data := { id := "a", label := "A" } }]⟩

/-- Witness for `c1_order_preserving_resort`: roots `a` (index 0, at
x = 100) and `b` (index 1, at x = 0), with a child under `a`. -/
theorem c1_witness :
    (1 < (["a", "b"] : List String).length)
    ∧ (["a", "b"] : List String).Nodup
    ∧ (∀ g ∈ (["a", "b"] : List String), g ∈ c1Nodes.map (fun n => n.id))
    ∧ (∀ g ∈ (["a", "b"] : List String), omHas [("a", 0), ("b", 1)] g = true)
    ∧ ((["a", "b"] : List String).map (fun g => getX c1Nodes g)).Nodup
    ∧ (∀ a ∈ (["a", "b"] : List String), ∀ b ∈ (["a", "b"] : List String),
        b ∉ (getDescendantsF c1Edges ["a", "b", "c"] 3 a).getD [])
    ∧ (((["a", "b"] : List String).map (fun g =>
          getX (processGroup c1Edges ["a", "b", "c"] 3 [("a", 0), ("b", 1)]
            c1Nodes ["a", "b"]) g)).Perm
        ((["a", "b"] : List String).map (fun g => getX c1Nodes g))
      ∧ (∀ a ∈ (["a", "b"] : List String), ∀ b ∈ (["a", "b"] : List String),
          ∀ ra rb, omLookup [("a", 0), ("b", 1)] a = some ra →
          omLookup [("a", 0), ("b", 1)] b = some rb → ra < rb →
          getX (processGroup c1Edges ["a", "b", "c"] 3 [("a", 0), ("b", 1)]
            c1Nodes ["a", "b"]) a <
            getX (processGroup c1Edges ["a", "b", "c"] 3 [("a", 0), ("b", 1)]
              c1Nodes ["a", "b"]) b)) :=
  ⟨by decide, by decide, by decide, by decide, by decide, by decide,
   c1_order_preserving_resort c1Edges ["a", "b", "c"] 3 [("a", 0), ("b", 1)]
     c1Nodes ["a", "b"] (by decide) (by decide) (by decide) (by decide)
     (by decide) (by decide)⟩

/-! ## Helper lemmas: reachability along edges -/

theorem getDescendantsF_zero (edges : List FlowEdge) (allIds : List String)
    (nodeId : String) : getDescendantsF edges allIds 0 nodeId = none := rfl

theorem getDescendantsF_succ (edges : List FlowEdge) (allIds : List String) (f : Nat)
    (nodeId : String) :
    getDescendantsF edges allIds (f + 1) nodeId =
      descendantsOverEdges edges allIds f (edges.filter (fun e => e.source == nodeId)) := by
  show (edges.filter (fun e => e.source == nodeId)).foldr _ (some []) = _
  generalize edges.filter (fun e => e.source == nodeId) = l
  induction l with
  | nil => rfl
  | cons e rest ih =>
    rw [List.foldr_cons, ih]
    rfl

theorem descendantsOverEdges_nil (edges : List FlowEdge) (allIds : List String)
    (fuel : Nat) : descendantsOverEdges edges allIds fuel [] = some [] := rfl

theorem descendantsOverEdges_cons (edges : List FlowEdge) (allIds : List String)
    (fuel : Nat) (e : FlowEdge) (rest : List FlowEdge) :
    descendantsOverEdges edges allIds fuel (e :: rest) =
      if allIds.contains e.target then
        match getDescendantsF edges allIds fuel e.target,
              descendantsOverEdges edges allIds fuel rest with
        | some sub, some restL => some (e.target :: (sub ++ restL))
        | _, _ => none
      else descendantsOverEdges edges allIds fuel rest := rfl

theorem reachN_rank (edges : List FlowEdge) (allIds : List String) (f : String → Nat)
    (hf : ∀ e ∈ edges, f e.target < f e.source) (n : Nat) (a x : String)
    (h : ReachN edges allIds n a x) : f x < f a := by
  induction h with
  | direct a e he hs ht =>
    have := hf e he
    rw [hs] at this
    exact this
  | step a x n e he hs ht hr ih =>
    have h1 := hf e he
    rw [hs] at h1
    omega

theorem reachN_pos (edges : List FlowEdge) (allIds : List String) (n : Nat)
    (a x : String) (h : ReachN edges allIds n a x) : 1 ≤ n := by
  cases h <;> omega

theorem reachN_last (edges : List FlowEdge) (allIds : List String) (n : Nat)
    (a x : String) (h : ReachN edges allIds n a x) :
    ∃ e, e ∈ edges ∧ e.target = x ∧ allIds.contains x = true ∧
      ((n = 1 ∧ e.source = a) ∨
        (∃ m, n = m + 1 ∧ ReachN edges allIds m a e.source)) := by
  induction h with
  | direct a e he hs ht => exact ⟨e, he, rfl, ht, Or.inl ⟨rfl, hs⟩⟩
  | step a x k e he hs ht hr ih =>
    rcases ih with ⟨e2, he2, ht2, hc2, hcase⟩
    rcases hcase with ⟨hk1, hsrc⟩ | ⟨m, hkm, hrm⟩
    · refine ⟨e2, he2, ht2, hc2, Or.inr ⟨1, by omega, ?_⟩⟩
      rw [hsrc]
      exact ReachN.direct a e he hs ht
    · refine ⟨e2, he2, ht2, hc2, Or.inr ⟨m + 1, by omega, ?_⟩⟩
      exact ReachN.step a e2.source m e he hs ht hrm

theorem unique_incoming (edges : List FlowEdge)
    (ht : (edges.map (fun e => e.target)).Nodup)
    (e1 e2 : FlowEdge) (h1 : e1 ∈ edges) (h2 : e2 ∈ edges)
    (he : e1.target = e2.target) : e1 = e2 :=
  List.inj_on_of_nodup_map ht h1 h2 he

theorem reachN_ord (edges : List FlowEdge) (allIds : List String)
    (ht : (edges.map (fun e => e.target)).Nodup) :
    ∀ n m u v x, ReachN edges allIds n u x → ReachN edges allIds m v x → n ≤ m →
      ((n = m ∧ u = v) ∨ (n < m ∧ ReachN edges allIds (m - n) v u)) := by
  intro n
  induction n using Nat.strong_induction_on with
  | _ n sih =>
    intro m u v x hu hv hnm
    rcases reachN_last edges allIds n u x hu with ⟨e1, he1, ht1, hc1, hcase1⟩
    rcases reachN_last edges allIds m v x hv with ⟨e2, he2, ht2, hc2, hcase2⟩
    have hee : e1 = e2 := unique_incoming edges ht e1 e2 he1 he2 (by rw [ht1, ht2])
    subst hee
    rcases hcase1 with ⟨hn1, hs1⟩ | ⟨k, hnk, hrk⟩
    · rcases hcase2 with ⟨hm1, hs2⟩ | ⟨l, hml, hrl⟩
      · left
        exact ⟨by omega, by rw [← hs1, hs2]⟩
      · right
        have hlp := reachN_pos edges allIds l v e1.source hrl
        refine ⟨by omega, ?_⟩
        have hmn : m - n = l := by omega
        rw [hmn, ← hs1]
        exact hrl
    · rcases hcase2 with ⟨hm1, hs2⟩ | ⟨l, hml, hrl⟩
      · exfalso
        have hkp := reachN_pos edges allIds k u e1.source hrk
        omega
      · have hkl : k ≤ l := by omega
        rcases sih k (by omega) l u v e1.source hrk hrl hkl with ⟨hkleq, huv⟩ | ⟨hklt, hr⟩
        · left
          exact ⟨by omega, huv⟩
        · right
          refine ⟨by omega, ?_⟩
          have hmn : m - n = l - k := by omega
          rw [hmn]
          exact hr

theorem no_back_reach (edges : List FlowEdge) (allIds : List String) (f : String → Nat)
    (hf : ∀ e ∈ edges, f e.target < f e.source)
    (ht : (edges.map (fun e => e.target)).Nodup)
    (e1 e2 : FlowEdge) (he1 : e1 ∈ edges) (he2 : e2 ∈ edges)
    (hs : e1.source = e2.source) (hc1 : allIds.contains e1.target = true)
    (k : Nat) (hk : ReachN edges allIds k e2.target e1.target) : False := by
  have h1 : ReachN edges allIds 1 e2.source e1.target := by
    rw [← hs]
    exact ReachN.direct e1.source e1 he1 rfl hc1
  have hpos := reachN_pos edges allIds k e2.target e1.target hk
  rcases reachN_ord edges allIds ht 1 k e2.source e2.target e1.target h1 hk hpos with
    ⟨hkeq, hveq⟩ | ⟨hlt, hr⟩
  · have := hf e2 he2
    rw [hveq] at this
    omega
  · have ha := reachN_rank edges allIds f hf _ _ _ hr
    have hb := hf e2 he2
    omega

theorem branch_disjoint (edges : List FlowEdge) (allIds : List String) (f : String → Nat)
    (hf : ∀ e ∈ edges, f e.target < f e.source)
    (ht : (edges.map (fun e => e.target)).Nodup)
    (e1 e2 : FlowEdge) (he1 : e1 ∈ edges) (he2 : e2 ∈ edges)
    (hs : e1.source = e2.source) (htg : e1.target ≠ e2.target)
    (hc1 : allIds.contains e1.target = true) (hc2 : allIds.contains e2.target = true)
    (x : String)
    (hx1 : x = e1.target ∨ Reaches edges allIds e1.target x)
    (hx2 : x = e2.target ∨ Reaches edges allIds e2.target x) : False := by
  rcases hx1 with h1 | ⟨n1, h1⟩ <;> rcases hx2 with h2 | ⟨n2, h2⟩
  · exact htg (by rw [← h1, ← h2])
  · subst h1
    exact no_back_reach edges allIds f hf ht e1 e2 he1 he2 hs hc1 n2 h2
  · subst h2
    exact no_back_reach edges allIds f hf ht e2 e1 he2 he1 hs.symm hc2 n1 h1
  · rcases le_total n1 n2 with hle | hle
    · rcases reachN_ord edges allIds ht n1 n2 e1.target e2.target x h1 h2 hle with
        ⟨heq, hteq⟩ | ⟨hlt, hr⟩
      · exact htg hteq
      · exact no_back_reach edges allIds f hf ht e1 e2 he1 he2 hs hc1 _ hr
    · rcases reachN_ord edges allIds ht n2 n1 e2.target e1.target x h2 h1 hle with
        ⟨heq, hteq⟩ | ⟨hlt, hr⟩
      · exact htg hteq.symm
      · exact no_back_reach edges allIds f hf ht e2 e1 he2 he1 hs.symm hc2 _ hr

theorem descOE_isSome (edges : List FlowEdge) (allIds : List String) (f : String → Nat)
    (g : Nat) (a : String)
    (hrec : ∀ b, f b < g → (getDescendantsF edges allIds g b).isSome = true)
    (hga : f a ≤ g)
    (hf : ∀ e ∈ edges, f e.target < f e.source) :
    ∀ l, (∀ e ∈ l, e ∈ edges ∧ e.source = a) →
      (descendantsOverEdges edges allIds g l).isSome = true := by
  intro l
  induction l with
  | nil => intro _; rfl
  | cons e rest ih =>
    intro hmem
    obtain ⟨hee, hes⟩ := hmem e (List.mem_cons_self e rest)
    have hrest := ih (fun e2 he2 => hmem e2 (List.mem_cons_of_mem _ he2))
    rw [descendantsOverEdges_cons]
    by_cases hc : allIds.contains e.target = true
    · rw [if_pos hc]
      have hft : f e.target < g := by
        have := hf e hee
        rw [hes] at this
        omega
      have hsub := hrec e.target hft
      rcases hsome : getDescendantsF edges allIds g e.target with _ | sub
      · rw [hsome] at hsub
        cases hsub
      · rcases hrsome : descendantsOverEdges edges allIds g rest with _ | restL
        · rw [hrsome] at hrest
          cases hrest
        · rfl
    · rw [if_neg hc]
      exact hrest

theorem getDescendantsF_isSome_of_rank (edges : List FlowEdge) (allIds : List String)
    (f : String → Nat) (hf : ∀ e ∈ edges, f e.target < f e.source) :
    ∀ fuel a, f a < fuel → (getDescendantsF edges allIds fuel a).isSome = true := by
  intro fuel
  induction fuel using Nat.strong_induction_on with
  | _ fuel sih =>
    intro a ha
    rcases fuel with _ | g
    · omega
    · rw [getDescendantsF_succ]
      refine descOE_isSome edges allIds f g a (fun b hb => sih g (by omega) b hb)
        (by omega) hf (edges.filter (fun e => e.source == a)) ?_
      intro e he
      have hm := List.mem_filter.mp he
      exact ⟨hm.1, by simpa using hm.2⟩

theorem descOE_spec (edges : List FlowEdge) (allIds : List String) (f : String → Nat)
    (hf : ∀ e ∈ edges, f e.target < f e.source)
    (ht : (edges.map (fun e => e.target)).Nodup)
    (g : Nat) (a : String) (hga : f a ≤ g)
    (hrec : ∀ b, f b < g → ∃ ds, getDescendantsF edges allIds g b = some ds ∧ ds.Nodup ∧
      (∀ x, x ∈ ds ↔ Reaches edges allIds b x)) :
    ∀ l, (∀ e ∈ l, e ∈ edges ∧ e.source = a) → ((l.map (fun e => e.target)).Nodup) →
      ∃ ds, descendantsOverEdges edges allIds g l = some ds ∧ ds.Nodup ∧
        (∀ x, x ∈ ds ↔ ∃ e ∈ l, allIds.contains e.target = true ∧
            (x = e.target ∨ Reaches edges allIds e.target x)) := by
  intro l
  induction l with
  | nil =>
    intro _ _
    exact ⟨[], rfl, List.nodup_nil, by simp⟩
  | cons e rest ih =>
    intro hmem hnd
    obtain ⟨hee, hes⟩ := hmem e (List.mem_cons_self e rest)
    rw [List.map_cons, List.nodup_cons] at hnd
    obtain ⟨restDs, hrest, hrnd, hrspec⟩ :=
      ih (fun e2 he2 => hmem e2 (List.mem_cons_of_mem _ he2)) hnd.2
    have hsrc : ∀ e2 ∈ rest, e2 ∈ edges ∧ e2.source = e.source := by
      intro e2 he2
      obtain ⟨h1, h2⟩ := hmem e2 (List.mem_cons_of_mem _ he2)
      exact ⟨h1, by rw [h2, hes]⟩
    have htgt : ∀ e2 ∈ rest, e.target ≠ e2.target := by
      intro e2 he2 heq
      exact hnd.1 (heq ▸ List.mem_map.mpr ⟨e2, he2, rfl⟩)
    by_cases hc : allIds.contains e.target = true
    · have hft : f e.target < g := by
        have := hf e hee
        rw [hes] at this
        omega
      obtain ⟨sub, hsub, hsnd, hsspec⟩ := hrec e.target hft
      refine ⟨e.target :: (sub ++ restDs), ?_, ?_, ?_⟩
      · rw [descendantsOverEdges_cons, if_pos hc, hsub, hrest]
      · rw [List.nodup_cons]
        constructor
        · intro hmem2
          rcases List.mem_append.mp hmem2 with hsubm | hrm
          · obtain ⟨k, hk⟩ := (hsspec _).mp hsubm
            have := reachN_rank edges allIds f hf k _ _ hk
            omega
          · obtain ⟨e2, he2, hc2, hcase⟩ := (hrspec _).mp hrm
            rcases hcase with heq | hreach
            · exact htgt e2 he2 heq
            · obtain ⟨k, hk⟩ := hreach
              exact no_back_reach edges allIds f hf ht e e2 hee (hsrc e2 he2).1
                (hsrc e2 he2).2.symm hc k hk
        · refine List.Nodup.append hsnd hrnd ?_
          intro x hxs hxr
          obtain ⟨k, hk⟩ := (hsspec x).mp hxs
          obtain ⟨e2, he2, hc2, hcase⟩ := (hrspec x).mp hxr
          exact branch_disjoint edges allIds f hf ht e e2 hee (hsrc e2 he2).1
            (hsrc e2 he2).2.symm (htgt e2 he2) hc hc2 x (Or.inr ⟨k, hk⟩) hcase
      · intro x
        constructor
        · intro hx
          rcases List.mem_cons.mp hx with hxe | hx2
          · exact ⟨e, List.mem_cons_self e rest, hc, Or.inl hxe⟩
          · rcases List.mem_append.mp hx2 with hxs | hxr
            · exact ⟨e, List.mem_cons_self e rest, hc, Or.inr ((hsspec x).mp hxs)⟩
            · obtain ⟨e2, he2, h1, h2⟩ := (hrspec x).mp hxr
              exact ⟨e2, List.mem_cons_of_mem _ he2, h1, h2⟩
        · rintro ⟨e2, he2, h1, h2⟩
          rcases List.mem_cons.mp he2 with heq | he3
          · subst heq
            rcases h2 with hxe | hreach
            · exact hxe ▸ List.mem_cons_self _ _
            · exact List.mem_cons_of_mem _
                (List.mem_append_left _ ((hsspec x).mpr hreach))
          · exact List.mem_cons_of_mem _
              (List.mem_append_right _ ((hrspec x).mpr ⟨e2, he3, h1, h2⟩))
    · refine ⟨restDs, ?_, hrnd, ?_⟩
      · rw [descendantsOverEdges_cons, if_neg hc, hrest]
      · intro x
        rw [hrspec x]
        constructor
        · rintro ⟨e2, he2, h1, h2⟩
          exact ⟨e2, List.mem_cons_of_mem _ he2, h1, h2⟩
        · rintro ⟨e2, he2, h1, h2⟩
          rcases List.mem_cons.mp he2 with heq | he3
          · subst heq
            exact absurd h1 (by simpa using hc)
          · exact ⟨e2, he3, h1, h2⟩

theorem descendants_spec (edges : List FlowEdge) (allIds : List String)
    (f : String → Nat) (hf : ∀ e ∈ edges, f e.target < f e.source)
    (ht : (edges.map (fun e => e.target)).Nodup) :
    ∀ fuel a, f a < fuel →
      ∃ ds, getDescendantsF edges allIds fuel a = some ds ∧ ds.Nodup ∧
        (∀ x, x ∈ ds ↔ Reaches edges allIds a x) := by
  intro fuel
  induction fuel using Nat.strong_induction_on with
  | _ fuel sih =>
    intro a ha
    rcases fuel with _ | g
    · omega
    · rw [getDescendantsF_succ]
      obtain ⟨ds, hds, hnd, hspec⟩ :=
        descOE_spec edges allIds f hf ht g a (by omega)
          (fun b hb => sih g (by omega) b hb)
          (edges.filter (fun e => e.source == a))
          (fun e he =>
            have hm := List.mem_filter.mp he
            ⟨hm.1, by simpa using hm.2⟩)
          (List.Nodup.sublist ((List.filter_sublist edges).map _) ht)
      refine ⟨ds, hds, hnd, ?_⟩
      intro x
      rw [hspec x]
      constructor
      · rintro ⟨e, he, h1, h2⟩
        have hef := List.mem_filter.mp he
        have hsa : e.source = a := by simpa using hef.2
        rcases h2 with heq | ⟨k, hk⟩
        · exact ⟨1, heq ▸ ReachN.direct a e hef.1 hsa h1⟩
        · exact ⟨k + 1, ReachN.step a x k e hef.1 hsa h1 hk⟩
      · rintro ⟨k, hk⟩
        cases hk with
        | direct a e he hs htc =>
          exact ⟨e, List.mem_filter.mpr ⟨he, by simp [hs]⟩, htc, Or.inl rfl⟩
        | step a x k e he hs htc hr =>
          exact ⟨e, List.mem_filter.mpr ⟨he, by simp [hs]⟩, htc, Or.inr ⟨k, hr⟩⟩

theorem c7_cyc_none : ∀ fuel,
    getDescendantsF c7CycEdges ["a", "b"] fuel "a" = none ∧
    getDescendantsF c7CycEdges ["a", "b"] fuel "b" = none := by
  intro fuel
  induction fuel with
  | zero => exact ⟨rfl, rfl⟩
  | succ g ih =>
    constructor
    · rw [getDescendantsF_succ]
      have hfa : c7CycEdges.filter (fun e => e.source == "a") =
          [{ id := "a-b", source := "a", target := "b" }] := by decide
      rw [hfa, descendantsOverEdges_cons, if_pos (by decide), ih.2]
    · rw [getDescendantsF_succ]
      have hfb : c7CycEdges.filter (fun e => e.source == "b") =
          [{ id := "b-a", source := "b", target := "a" }] := by decide
      rw [hfb, descendantsOverEdges_cons, if_pos (by decide), ih.1]

/-- **C7 (counterexample).** The descendant computation is *not* an
iterative traversal that tolerates accidental cycles: `getDescendants` is
plainly recursive with no visited set, and on the cyclic edge set
`a -> b -> a` the recursion never finishes — in the fueled embedding no
recursion-depth budget whatsoever produces a result for start node `a`. -/
theorem c7_counterexample_cycle_diverges :
    ¬ ∃ fuel, (getDescendantsF c7CycEdges ["a", "b"] fuel "a").isSome = true := by
  rintro ⟨fuel, h⟩
  rw [(c7_cyc_none fuel).1] at h
  cases h

/-- **C7 (amended).** The descendant computation is a recursive traversal
that terminates on every node/edge set whose edge relation admits a rank
strictly decreasing from source to target — every acyclic set, in
particular every tree the component builds (fuel `f start + 1`, i.e.
recursion depth bounded by the rank, suffices); on a reachable cycle it
does not terminate (see the counterexample). -/
theorem c7_amended_terminates_on_ranked (edges : List FlowEdge) (allIds : List String)
    (f : String → Nat) (hf : ∀ e ∈ edges, f e.target < f e.source) (start : String) :
    (getDescendantsF edges allIds (f start + 1) start).isSome = true :=
  getDescendantsF_isSome_of_rank edges allIds f hf (f start + 1) start (by omega)

/-- Witness for `c7_amended_terminates_on_ranked` on the chain
`a -> b -> c`. -/
theorem c7_amended_witness :
    (∀ e ∈ c2Edges, c2Rank e.target < c2Rank e.source)
    ∧ (getDescendantsF c2Edges ["a", "b", "c"] (c2Rank "a" + 1) "a").isSome = true :=
  ⟨by decide, c7_amended_terminates_on_ranked c2Edges ["a", "b", "c"] c2Rank (by decide) "a"⟩

/-- **C2.** Subtree cohesion of one shift of the re-layout pass: when the
pass moves a node to a new x (delta = targetX - current x), every
transitive descendant's x changes by exactly that delta, every other
node's x is untouched, no node's y changes, and the relative x-offsets
between the moved node and each descendant are preserved.  Hypotheses:
the edge relation admits a strictly decreasing rank (acyclic), each node
is the target of at most one edge (the tree shape the component builds),
enough fuel, and the moved node exists. -/
theorem c2_subtree_cohesion (edges : List FlowEdge) (allIds : List String)
    (fuel : Nat) (nodes : List FlowNode) (id : String) (targetX : Int)
    (f : String → Nat)
    (hf : ∀ e ∈ edges, f e.target < f e.source)
    (ht : (edges.map (fun e => e.target)).Nodup)
    (hfuel : f id < fuel)
    (hpres : id ∈ nodes.map (fun n => n.id)) :
    (getX (applyResortStep edges allIds fuel nodes id targetX) id = targetX)
    ∧ (∀ x, Reaches edges allIds id x → x ∈ nodes.map (fun n => n.id) →
        getX (applyResortStep edges allIds fuel nodes id targetX) x =
          getX nodes x + (targetX - getX nodes id))
    ∧ (∀ x, ¬ Reaches edges allIds id x → x ≠ id →
        getX (applyResortStep edges allIds fuel nodes id targetX) x = getX nodes x)
    ∧ (∀ x, getY (applyResortStep edges allIds fuel nodes id targetX) x = getY nodes x)
    ∧ (∀ x, Reaches edges allIds id x → x ∈ nodes.map (fun n => n.id) →
        getX (applyResortStep edges allIds fuel nodes id targetX) x -
          getX (applyResortStep edges allIds fuel nodes id targetX) id =
          getX nodes x - getX nodes id) := by
  obtain ⟨ds, hds, hnd, hspec⟩ := descendants_spec edges allIds f hf ht fuel id hfuel
  have hgetD : (getDescendantsF edges allIds fuel id).getD [] = ds := by rw [hds]; rfl
  have hself : id ∉ ds := by
    intro h
    obtain ⟨k, hk⟩ := (hspec id).mp h
    exact absurd (reachN_rank edges allIds f hf k id id hk) (by omega)
  have h1 : getX (applyResortStep edges allIds fuel nodes id targetX) id = targetX :=
    applyResortStep_getX_self edges allIds fuel nodes id targetX hpres (hgetD ▸ hself)
  have hshift : ∀ x, Reaches edges allIds id x → x ∈ nodes.map (fun n => n.id) →
      getX (applyResortStep edges allIds fuel nodes id targetX) x =
        getX nodes x + (targetX - getX nodes id) := by
    intro x hreach hxpres
    have hxds : x ∈ ds := (hspec x).mpr hreach
    have hxid : x ≠ id := fun he => hself (he ▸ hxds)
    rw [applyResortStep_eq]
    split
    · rename_i hdelta
      omega
    · rw [hgetD]
      have hxpres2 : x ∈ (setNodeX nodes id targetX).map (fun n => n.id) := by
        rw [setNodeX_map_id]
        exact hxpres
      rw [getX_shiftDescendants_count _ _ _ _ hxpres2,
          getX_setNodeX_ne _ _ _ _ hxid,
          List.count_eq_one_of_mem hnd hxds]
      ring
  refine ⟨h1, hshift, ?_, ?_, ?_⟩
  · intro x hnreach hxid
    have hxds : x ∉ ds := fun h => hnreach ((hspec x).mp h)
    exact applyResortStep_getX_other edges allIds fuel nodes id targetX x hxid
      (hgetD ▸ hxds)
  · intro x
    exact getY_applyResortStep edges allIds fuel nodes id targetX x
  · intro x hreach hxpres
    rw [hshift x hreach hxpres, h1]
    ring

/-- Witness for `c2_subtree_cohesion` on the chain `a -> b -> c`, moving
`a` to x = 50. -/
theorem c2_witness :
    (∀ e ∈ c2Edges, c2Rank e.target < c2Rank e.source)
    ∧ ((c2Edges.map (fun e => e.target)).Nodup)
    ∧ (c2Rank "a" < 3)
    ∧ ("a" ∈ c2Nodes.map (fun n => n.id))
    ∧ ((getX (applyResortStep c2Edges ["a", "b", "c"] 3 c2Nodes "a" 50) "a" = 50)
      ∧ (∀ x, Reaches c2Edges ["a", "b", "c"] "a" x → x ∈ c2Nodes.map (fun n => n.id) →
          getX (applyResortStep c2Edges ["a", "b", "c"] 3 c2Nodes "a" 50) x =
            getX c2Nodes x + (50 - getX c2Nodes "a"))
      ∧ (∀ x, ¬ Reaches c2Edges ["a", "b", "c"] "a" x → x ≠ "a" →
          getX (applyResortStep c2Edges ["a", "b", "c"] 3 c2Nodes "a" 50) x =
            getX c2Nodes x)
      ∧ (∀ x, getY (applyResortStep c2Edges ["a", "b", "c"] 3 c2Nodes "a" 50) x =
          getY c2Nodes x)
      ∧ (∀ x, Reaches c2Edges ["a", "b", "c"] "a" x → x ∈ c2Nodes.map (fun n => n.id) →
          getX (applyResortStep c2Edges ["a", "b", "c"] 3 c2Nodes "a" 50) x -
            getX (applyResortStep c2Edges ["a", "b", "c"] 3 c2Nodes "a" 50) "a" =
            getX c2Nodes x - getX c2Nodes "a")) :=
  ⟨by decide, by decide, by decide, by decide,
   c2_subtree_cohesion c2Edges ["a", "b", "c"] 3 c2Nodes "a" 50 c2Rank
     (by decide) (by decide) (by decide) (by decide)⟩

/-! ## Helper lemmas: edge ids and the active path -/

theorem list_dash_inj : ∀ (A C B D : List Char), ('-' : Char) ∉ A → ('-' : Char) ∉ C →
    A ++ '-' :: B = C ++ '-' :: D → A = C ∧ B = D := by
  intro A
  induction A with
  | nil =>
    intro C B D _ hC h
    cases C with
    | nil => simpa using h
    | cons c cs =>
      exfalso
      rw [List.nil_append, List.cons_append] at h
      have hc : '-' = c := (List.cons.inj h).1
      exact hC (hc ▸ List.mem_cons_self c cs)
  | cons a as ih =>
    intro C B D hA hC h
    cases C with
    | nil =>
      exfalso
      rw [List.nil_append, List.cons_append] at h
      have hc : a = '-' := (List.cons.inj h).1
      exact hA (hc ▸ List.mem_cons_self a as)
    | cons c cs =>
      rw [List.cons_append, List.cons_append] at h
      have h1 := (List.cons.inj h).1
      have h2 := ih cs B D (fun hm => hA (List.mem_cons_of_mem _ hm))
        (fun hm => hC (List.mem_cons_of_mem _ hm)) (List.cons.inj h).2
      exact ⟨by rw [h1, h2.1], h2.2⟩

theorem string_dash_inj (a b c d : String) (ha : dashFree a) (hc : dashFree c)
    (h : a ++ "-" ++ b = c ++ "-" ++ d) : a = c ∧ b = d := by
  have hdata := congrArg String.data h
  rw [String.data_append, String.data_append, String.data_append,
      String.data_append] at hdata
  have hdash : ("-" : String).data = ['-'] := rfl
  rw [hdash, List.append_assoc, List.append_assoc, List.singleton_append,
      List.singleton_append] at hdata
  obtain ⟨h1, h2⟩ := list_dash_inj a.data c.data b.data d.data ha hc hdata
  exact ⟨String.ext h1, String.ext h2⟩

theorem getActivePathEdges_nil : getActivePathEdges [] = [] := rfl

theorem getActivePathEdges_single (a : String) : getActivePathEdges [a] = [] := rfl

theorem getActivePathEdges_cons2 (a b : String) (rest : List String) :
    getActivePathEdges (a :: b :: rest) =
      (a ++ "-" ++ b) :: getActivePathEdges (b :: rest) := rfl

theorem pathPairs_nil : pathPairs [] = [] := rfl

theorem pathPairs_single (a : String) : pathPairs [a] = [] := rfl

theorem pathPairs_cons2 (a b : String) (rest : List String) :
    pathPairs (a :: b :: rest) = (a, b) :: pathPairs (b :: rest) := rfl

theorem mem_getActivePathEdges (p : List String) (x : String) :
    x ∈ getActivePathEdges p ↔ ∃ uv ∈ pathPairs p, x = uv.1 ++ "-" ++ uv.2 := by
  induction p with
  | nil => simp [getActivePathEdges_nil, pathPairs_nil]
  | cons a rest ih =>
    cases rest with
    | nil => simp [getActivePathEdges_single, pathPairs_single]
    | cons b rest2 =>
      rw [getActivePathEdges_cons2, pathPairs_cons2]
      constructor
      · intro hx
        rcases List.mem_cons.mp hx with h | h
        · exact ⟨(a, b), List.mem_cons_self _ _, h⟩
        · obtain ⟨uv, h1, h2⟩ := ih.mp h
          exact ⟨uv, List.mem_cons_of_mem _ h1, h2⟩
      · rintro ⟨uv, h1, h2⟩
        rcases List.mem_cons.mp h1 with h | h
        · subst h
          exact h2 ▸ List.mem_cons_self _ _
        · exact List.mem_cons_of_mem _ (ih.mpr ⟨uv, h, h2⟩)

theorem pathPairs_mem_path (p : List String) (uv : String × String)
    (h : uv ∈ pathPairs p) : uv.1 ∈ p ∧ uv.2 ∈ p := by
  induction p with
  | nil => cases h
  | cons a rest ih =>
    cases rest with
    | nil => cases h
    | cons b rest2 =>
      rw [pathPairs_cons2] at h
      rcases List.mem_cons.mp h with heq | hm
      · subst heq
        exact ⟨List.mem_cons_self _ _,
          List.mem_cons_of_mem _ (List.mem_cons_self _ _)⟩
      · obtain ⟨h1, h2⟩ := ih hm
        exact ⟨List.mem_cons_of_mem _ h1, List.mem_cons_of_mem _ h2⟩

/-- **C8.** On every active-path change the styling effect restyles every
edge from scratch: an edge is marked animated/highlighted exactly when its
(source, target) pair is a consecutive pair of the new path, every other
edge gets the default stroke, width 2 and no class — and for the empty
path every edge is default, so no stale highlight survives a clear.
Hypotheses: edge ids follow the `"<source>-<target>"` convention and node
ids are dash-free (so the pair id determines the pair). -/
theorem c8_active_path_styling (path : List String) (edges : List FlowEdge)
    (hid : ∀ e ∈ edges, e.id = e.source ++ "-" ++ e.target)
    (hsrc : ∀ e ∈ edges, dashFree e.source)
    (hpath : ∀ s ∈ path, dashFree s) :
    (styleEdges path edges = edges.map (styleEdge (getActivePathEdges path)))
    ∧ (∀ e ∈ edges,
        ((styleEdge (getActivePathEdges path) e).animated = true ↔
          (e.source, e.target) ∈ pathPairs path)
      ∧ ((e.source, e.target) ∈ pathPairs path →
          (styleEdge (getActivePathEdges path) e).stroke =
              "var(--graph-tree-active-path, #22c55e)"
            ∧ (styleEdge (getActivePathEdges path) e).strokeWidth = 3
            ∧ (styleEdge (getActivePathEdges path) e).className =
                "graph-tree-active-path-edge")
      ∧ ((e.source, e.target) ∉ pathPairs path →
          (styleEdge (getActivePathEdges path) e).animated = false
            ∧ (styleEdge (getActivePathEdges path) e).stroke =
                "var(--graph-tree-line, #94a3b8)"
            ∧ (styleEdge (getActivePathEdges path) e).strokeWidth = 2
            ∧ (styleEdge (getActivePathEdges path) e).className = ""))
    ∧ (path = [] → ∀ e2 ∈ styleEdges path edges,
        e2.animated = false ∧ e2.stroke = "var(--graph-tree-line, #94a3b8)"
          ∧ e2.strokeWidth = 2 ∧ e2.className = "") := by
  have hiff : ∀ e ∈ edges,
      (e.id ∈ getActivePathEdges path ↔ (e.source, e.target) ∈ pathPairs path) := by
    intro e he
    constructor
    · intro hx
      obtain ⟨uv, hm, heq⟩ := (mem_getActivePathEdges path e.id).mp hx
      rw [hid e he] at heq
      obtain ⟨u, v⟩ := uv
      have hup : u ∈ path := (pathPairs_mem_path path (u, v) hm).1
      obtain ⟨hsq, htq⟩ := string_dash_inj e.source e.target u v
        (hsrc e he) (hpath u hup) heq
      rw [hsq, htq]
      exact hm
    · intro hmem
      exact (mem_getActivePathEdges path e.id).mpr
        ⟨(e.source, e.target), hmem, hid e he⟩
  refine ⟨?_, ?_, ?_⟩
  · cases path with
    | nil => rfl
    | cons a rest =>
      unfold styleEdges
      rw [if_pos (by simp)]
  · intro e he
    refine ⟨?_, ?_, ?_⟩
    · show (getActivePathEdges path).contains e.id = true ↔ _
      constructor
      · intro h
        exact (hiff e he).mp (by simpa using h)
      · intro h
        simpa using (hiff e he).mpr h
    · intro hmem
      have hm2 : e.id ∈ getActivePathEdges path := (hiff e he).mpr hmem
      refine ⟨?_, ?_, ?_⟩ <;> simp [styleEdge, hm2]
    · intro hnmem
      have hm2 : e.id ∉ getActivePathEdges path := fun h => hnmem ((hiff e he).mp h)
      refine ⟨?_, ?_, ?_, ?_⟩ <;> simp [styleEdge, hm2]
  · intro hp e2 he2
    subst hp
    obtain ⟨e, _, heq⟩ := List.mem_map.mp he2
    rw [← heq]
    refine ⟨?_, ?_, ?_, ?_⟩ <;> simp [styleEdge]

/-- Witness for `c8_active_path_styling` with path `[R, C1]` over edges
`R-C1` and `R-C2`. -/
theorem c8_witness :
    (∀ e ∈ c8Edges, e.id = e.source ++ "-" ++ e.target)
    ∧ (∀ e ∈ c8Edges, dashFree e.source)
    ∧ (∀ s ∈ (["R", "C1"] : List String), dashFree s)
    ∧ ((styleEdges ["R", "C1"] c8Edges =
          c8Edges.map (styleEdge (getActivePathEdges ["R", "C1"])))
      ∧ (∀ e ∈ c8Edges,
          ((styleEdge (getActivePathEdges ["R", "C1"]) e).animated = true ↔
            (e.source, e.target) ∈ pathPairs ["R", "C1"])
        ∧ ((e.source, e.target) ∈ pathPairs ["R", "C1"] →
            (styleEdge (getActivePathEdges ["R", "C1"]) e).stroke =
                "var(--graph-tree-active-path, #22c55e)"
              ∧ (styleEdge (getActivePathEdges ["R", "C1"]) e).strokeWidth = 3
              ∧ (styleEdge (getActivePathEdges ["R", "C1"]) e).className =
                  "graph-tree-active-path-edge")
        ∧ ((e.source, e.target) ∉ pathPairs ["R", "C1"] →
            (styleEdge (getActivePathEdges ["R", "C1"]) e).animated = false
              ∧ (styleEdge (getActivePathEdges ["R", "C1"]) e).stroke =
                  "var(--graph-tree-line, #94a3b8)"
              ∧ (styleEdge (getActivePathEdges ["R", "C1"]) e).strokeWidth = 2
              ∧ (styleEdge (getActivePathEdges ["R", "C1"]) e).className = ""))
      ∧ ((["R", "C1"] : List String) = [] → ∀ e2 ∈ styleEdges ["R", "C1"] c8Edges,
          e2.animated = false ∧ e2.stroke = "var(--graph-tree-line, #94a3b8)"
            ∧ e2.strokeWidth = 2 ∧ e2.className = "")) :=
  ⟨by decide, by decide, by decide,
   c8_active_path_styling ["R", "C1"] c8Edges (by decide) (by decide) (by decide)⟩
